import Mathlib

/-!
Verification development for the `gdb_pretty_printers` repository
(`gdb_synthetic_nodes.py`, `gdb_printers.py`).

The Python sources run inside gdb and manipulate gdb types and values.  We
shallowly embed the relevant host surface:

* `GType` models `gdb.Type` restricted to the shapes the code builds: named
  base (struct / scalar) types with `const` / `volatile` qualifiers, pointer
  types, reference types and fixed-size array types.
* `GValue` models `gdb.Value` as a typed location.  For an object value the
  `loc` field is the address of its storage; for the pointer r-values produced
  by `Value.address` / `Value.cast` it is the pointed-to address (gdb
  materialises such pointers without giving them storage of their own).
* `typeToString` models gdb's C type printer (`str(gdb.Type)`), which renders
  a type as a C declaration with an abstract declarator.
* The two regular expressions of `gdb_synthetic_nodes.py` are embedded as
  executable matching functions with Python `re` backtracking semantics.

Machine integers do not overflow on any path modelled here (tag components are
small non-negative ints), so `Nat` / `Int` are used directly.
-/

mutual

/-- Model of `gdb.Type` for the shapes this code constructs.  `const` and
`volatile` qualifiers are carried on the named base type, which is the only
place the sources qualify a type.  `arr t n` is a fixed-size array of `n`
elements of type `t` (gdb's `Type.array` takes an inclusive upper bound, see
`GType.array`).  A base type carries its fields so that `Type.fields()` can be
modelled. -/
inductive GType where
  | base (isConst isVolatile : Bool) (name : String) (fields : List GField)
  | ptr (t : GType)
  | ref (t : GType)
  | arr (t : GType) (n : Nat)

/-- Model of a field of a composite gdb type (`gdb.Field`): an optional name,
whether the field is a base-class sub-object, the bit position (the `bitpos`
attribute is absent exactly for fields without storage, i.e. static members),
and the field's type. -/
inductive GField where
  | mk (fname : Option String) (isBase : Bool) (bitpos : Option Nat) (ftype : GType)

end

def GField.fname : GField → Option String
  | .mk n _ _ _ => n

def GField.isBase : GField → Bool
  | .mk _ b _ _ => b

def GField.bitpos : GField → Option Nat
  | .mk _ _ p _ => p

def GField.ftype : GField → GType
  | .mk _ _ _ t => t

/-- Model of `gdb.Type.pointer()`. -/
def GType.pointer (t : GType) : GType := .ptr t

/-- Model of `gdb.Type.reference()`. -/
def GType.reference (t : GType) : GType := .ref t

/-- Model of `gdb.Type.array(bound)`: gdb takes the inclusive upper bound of
the new array type, with lower bound `0`, so the result has `bound + 1`
elements; `array(-1)` is legal and yields a zero-length array.  (Bounds below
`-1` raise in gdb; no code path modelled here produces them.) -/
def GType.array (t : GType) (bound : Int) : GType := .arr t (bound + 1).toNat

/-- Model of `gdb.Type.const()`.  The sources only ever qualify a named base
type (the type returned by `gdb.lookup_type`), which is the case modelled
precisely; on other shapes gdb would wrap the type in a qualifier that our
string printer never needs to render. -/
def GType.const : GType → GType
  | .base _ v n f => .base true v n f
  | t => t

/-- Model of `gdb.Type.volatile()` (see `GType.const` for scope). -/
def GType.volatile : GType → GType
  | .base c _ n f => .base c true n f
  | t => t

/-- Model of `gdb.Type.fields()` for the composite types the printers walk.
On non-composite types `fields()` raises `TypeError`; callers in the sources
always guard that with `try`/`except`, modelled at each call site. -/
def GType.fields : GType → Option (List GField)
  | .base _ _ _ f => some f
  | _ => none

/-- Decimal rendering of a natural number, little-endian digit accumulator
with structural fuel (`n` itself bounds the number of digits). -/
def decimalDigitsAux : Nat → Nat → List Char
  | 0, _ => []
  | _, 0 => []
  | f + 1, n + 1 => Char.ofNat (48 + (n + 1) % 10) :: decimalDigitsAux f ((n + 1) / 10)

/-- Decimal rendering of a natural number, as gdb and Python print it
(`0` prints as `"0"`; gdb renders a zero-length array type as `[0]`). -/
def decimal (n : Nat) : String :=
  if n = 0 then "0" else ⟨(decimalDigitsAux n n).reverse⟩

/-- Model of Python's `int` applied to a string of decimal digits (the only
strings the sources feed it: groups captured by `\d+`). -/
def pyIntOfDigits (s : List Char) : Nat :=
  s.foldl (fun a c => 10 * a + (c.toNat - 48)) 0

/-- Whether a declarator string begins with a pointer or reference mark
(those bind looser than an array suffix, so C declaration syntax needs
parentheses around them under an array). -/
def declStartsPtr (d : String) : Bool :=
  match d.data with
  | c :: _ => c = '*' || c = '&'
  | [] => false

/-- One step of gdb's C type printer: render type `t` around the abstract
declarator `d` built so far.  An array type parenthesises a declarator that
starts with `*` or `&`; a nonempty declarator is separated from the base name
by one space.  This reproduces `str(gdb.Type)` for the shapes in `GType`. -/
def fmtType : GType → String → String
  | .base c v name _, d =>
      (if c then "const " else "") ++ (if v then "volatile " else "") ++ name
        ++ (if d = "" then "" else " " ++ d)
  | .ptr t, d => fmtType t ("*" ++ d)
  | .ref t, d => fmtType t ("&" ++ d)
  | .arr t n, d =>
      fmtType t
        (if declStartsPtr d then "(" ++ d ++ ")[" ++ decimal n ++ "]"
        else d ++ "[" ++ decimal n ++ "]")

/-- Model of `str(gdb.Type)`. -/
def typeToString (t : GType) : String := fmtType t ""

/-- Model of `gdb.Value`: a typed location.  For an object value `loc` is the
address of its storage; for pointer r-values produced by `Value.address` and
propagated through `Value.cast`, `loc` is the pointed-to address. -/
structure GValue where
  type : GType
  loc : Int

/-- Model of `gdb.Value.address` for an lvalue: a pointer r-value whose
content is the value's address.  (For a value without storage gdb returns
`None`; the tagged values the sources build all come from lvalues.) -/
def GValue.address (v : GValue) : GValue := ⟨v.type.pointer, v.loc⟩

/-- Model of `gdb.Value.cast`: reinterpret the same bits/location at a new
type. -/
def GValue.cast (v : GValue) (t : GType) : GValue := ⟨t, v.loc⟩

/-- Model of `gdb.Value.dereference()`: for a pointer value, the object value
at the pointed-to address; anything else raises `gdb.error`. -/
def GValue.dereference (v : GValue) : Except String GValue :=
  match v.type with
  | .ptr t => .ok ⟨t, v.loc⟩
  | _ => .error "gdb.error: attempt to take contents of a non-pointer value"

/-! ### The two regular expressions of `gdb_synthetic_nodes.py`

`SYNTH_TAG_TYPE_RE` is
`^(?P<c>const )?(?P<v>volatile )?(?P<type>.+?)(?P<open>\()?\*\(\*\*\*\*\)`
`(?P<tags>(?:\[\d+\])+)(?(open)\))(?P<array>.*)$`
and `SYNTH_TAGS_RE` is `\[(\d+)\]`.  They are embedded as executable matchers
with Python `re` semantics: `search` of a `^`-anchored pattern matches at the
start only, `(X)?` prefers the group present, `.+?` is lazy and `.` does not
match a newline, `(?:\[\d+\])+` and `\d+` are greedy (giving back repetitions
can never help here because the following context -- `]`, `)` or `.*$` --
never starts with `[` or a digit), and `$` also matches just before a single
trailing newline. -/

/-- Consume an exact literal prefix. -/
def dropLit : List Char → List Char → Option (List Char)
  | [], rest => some rest
  | c :: cs, d :: rest => if d = c then dropLit cs rest else none
  | _ :: _, [] => none

/-- ASCII decimal digit test (`\d` on the ASCII strings gdb produces). -/
def isAsciiDigit (c : Char) : Bool := 48 ≤ c.toNat && c.toNat ≤ 57

/-- Characters of the literal `\*\(\*\*\*\*\)` in `SYNTH_TAG_TYPE_RE`. -/
def quadPtrLit : List Char := ['*', '(', '*', '*', '*', '*', ')']

/-- Match one `\[(\d+)\]` unit at the head: the digit capture and the rest
(`\d+` is greedy, and `]` is not a digit, so the maximal digit run must be
followed directly by `]`). -/
def matchTagUnit : List Char → Option (List Char × List Char)
  | [] => none
  | c :: rest =>
      if c = '[' then
        let sp := rest.span isAsciiDigit
        if sp.1.isEmpty then none
        else
          match sp.2 with
          | [] => none
          | c' :: rest'' => if c' = ']' then some (sp.1, rest'') else none
      else none

/-- Greedy `(?:\[\d+\])+` at the head (fuel-structural; each unit consumes at
least three characters, so `length + 1` fuel is always enough). -/
def matchTagsPlusAux : Nat → List Char → Option (List (List Char) × List Char)
  | 0, _ => none
  | f + 1, s =>
      match matchTagUnit s with
      | none => none
      | some (d, rest) =>
          match matchTagsPlusAux f rest with
          | some (ds, rest') => some (d :: ds, rest')
          | none => some ([d], rest)

/-- Greedy `(?:\[\d+\])+` at the head of the string. -/
def matchTagsPlus (s : List Char) : Option (List (List Char) × List Char) :=
  matchTagsPlusAux (s.length + 1) s

/-- Match `(?P<open>\()?\*\(\*\*\*\*\)(?P<tags>...)(?(open)\))` at the head:
returns whether `open` matched, the digit captures of the tags group, and the
rest of the string. -/
def matchAfterType (s : List Char) : Option (Bool × List (List Char) × List Char) :=
  let withParen : Option (Bool × List (List Char) × List Char) :=
    match s with
    | [] => none
    | c :: rest =>
        if c = '(' then do
          let rest1 ← dropLit quadPtrLit rest
          let (ds, rest2) ← matchTagsPlus rest1
          match rest2 with
          | [] => none
          | c' :: rest3 => if c' = ')' then some (true, ds, rest3) else none
        else none
  let noParen : Option (Bool × List (List Char) × List Char) := do
    let rest1 ← dropLit quadPtrLit s
    let (ds, rest2) ← matchTagsPlus rest1
    some (false, ds, rest2)
  match withParen with
  | some r => some r
  | none => noParen

/-- Match `(?P<array>.*)$` against the rest of the string: `.` excludes
newlines and `$` also matches just before one trailing newline.  Returns the
captured text. -/
def matchDotStarEnd (s : List Char) : Option (List Char) :=
  if s.contains '\n' then
    if s.getLast? = some '\n' && !(s.dropLast.contains '\n') then some s.dropLast
    else none
  else some s

/-- Lazy scan for `(?P<type>.+?)` followed by `matchAfterType` and the array
tail: try the shortest type first and grow it one (non-newline) character at a
time.  `acc` holds the reversed characters already committed to the type
group. -/
def lazyTypeAux : List Char → List Char → Option (List Char × Bool × List (List Char) × List Char)
  | acc, s =>
      match
        (do
          let (op, ds, rest) ← matchAfterType s
          let arrGrp ← matchDotStarEnd rest
          pure (acc.reverse, op, ds, arrGrp) :
          Option (List Char × Bool × List (List Char) × List Char))
      with
      | some r => some r
      | none =>
          match s with
          | [] => none
          | c :: s' => if c = '\n' then none else lazyTypeAux (c :: acc) s'

/-- Result of a successful `SYNTH_TAG_TYPE_RE` search: the named groups. -/
structure TagMatch where
  cGrp : Bool
  vGrp : Bool
  typeGrp : String
  openGrp : Bool
  tagsCaps : List (List Char)
  arrayGrp : String

/-- Text of the `tags` group, rebuilt from its unit captures (each unit the
regex consumed is exactly `[` ++ capture ++ `]`). -/
def bracketJoin (ds : List (List Char)) : List Char :=
  ds.foldr (fun d acc => '[' :: (d ++ ']' :: acc)) []

/-- Attempt the part of the pattern after the optional qualifier groups,
with the given values for groups `c` and `v`. -/
def tryTypeFrom (cFlag vFlag : Bool) (s : List Char) : Option TagMatch :=
  match s with
  | [] => none
  | ch :: rest =>
      if ch = '\n' then none
      else
        (lazyTypeAux [ch] rest).map fun r =>
          ⟨cFlag, vFlag, ⟨r.1⟩, r.2.1, r.2.2.1, ⟨r.2.2.2⟩⟩

/-- Model of `SYNTH_TAG_TYPE_RE.search`: the pattern is `^`-anchored, the two
qualifier groups each prefer to match, and on failure the engine backtracks
them in regex order: (c,v) = (yes,yes), (yes,no), (no,yes), (no,no). -/
def synthTagTypeSearch (s : String) : Option TagMatch :=
  let cs := s.data
  let branchC : Option TagMatch :=
    match dropLit "const ".data cs with
    | some rest1 =>
        (match dropLit "volatile ".data rest1 with
         | some rest2 =>
             match tryTypeFrom true true rest2 with
             | some m => some m
             | none => tryTypeFrom true false rest1
         | none => tryTypeFrom true false rest1)
    | none => none
  match branchC with
  | some m => some m
  | none =>
      match
        (match dropLit "volatile ".data cs with
         | some rest1 => tryTypeFrom false true rest1
         | none => none)
      with
      | some m => some m
      | none => tryTypeFrom false false cs

/-- Model of `SYNTH_TAGS_RE.findall`: scan left to right, taking each
non-overlapping `\[(\d+)\]` match and otherwise advancing one character. -/
def synthTagsFindallAux : Nat → List Char → List (List Char)
  | 0, _ => []
  | _, [] => []
  | f + 1, s =>
      match matchTagUnit s with
      | some (d, rest) => d :: synthTagsFindallAux f rest
      | none => synthTagsFindallAux f s.tail

/-- Model of `SYNTH_TAGS_RE.findall` on a string. -/
def synthTagsFindall (s : List Char) : List (List Char) :=
  synthTagsFindallAux s.length s

/-! ### `gdb_synthetic_nodes.py` -/

/-- Model of `make_enums_tag`: build nested array types over a pointer to the
value's type, one `array(enum - 1)` per tag component iterating the tuple in
reverse, wrap the result in four pointer levels, and cast the value's address
to that type. -/
def make_enums_tag (val : GValue) (enum_tuple : List Nat) : GValue :=
  let base_type := val.type.pointer
  let array_type :=
    enum_tuple.reverse.foldl (fun (t : GType) (e : Nat) => t.array ((e : Int) - 1))
      base_type
  let ptr_type := array_type.pointer.pointer.pointer.pointer
  (val.address).cast ptr_type

/-- Model of `get_type_tag_matches`: run `SYNTH_TAG_TYPE_RE.search` and raise
`ValueError` when it does not match. -/
def get_type_tag_matches (type_str : String) : Except String TagMatch :=
  match synthTagTypeSearch type_str with
  | none => .error ("ValueError: couldn't match tag type '" ++ type_str ++ "'")
  | some m => .ok m

/-- Model of `extract_enums_tag`: match the stringified type, then
`findall` the `tags` group and convert each capture with `int`. -/
def extract_enums_tag (val : GValue) : Except String (List Nat) := do
  let matched ← get_type_tag_matches (typeToString val.type)
  let found := synthTagsFindall (bracketJoin matched.tagsCaps)
  pure (found.map pyIntOfDigits)

/-- Model of the argument `recover_value` passes to gdb's `Type.array`: the
source forwards the strings returned by `re.findall` without converting them,
and gdb's binding (`PyArg_ParseTuple(args, "l|l", ...)`) accepts only
integers, raising `TypeError` for a `str`.  Integer arguments behave as
`GType.array`. -/
def GType.arrayPyArg (t : GType) : Int ⊕ String → Except String GType
  | .inl b => .ok (t.array b)
  | .inr _ => .error "TypeError: an integer is required"

/-- Model of `recover_value`: match the stringified type, look the base type
up by the text of the `type` group (`gdb.lookup_type`, modelled as an
environment in the host), re-apply `volatile` / `const`, rebuild any trailing
array dimensions from the `array` group (passing `re.findall`'s strings to
`Type.array`, exactly as the source does), and cast-and-dereference the tagged
value back at the rebuilt type. -/
def recover_value (lookup_type : String → Option GType) (val : GValue) :
    Except String GValue := do
  let matched ← get_type_tag_matches (typeToString val.type)
  let base0 ←
    match lookup_type matched.typeGrp with
    | some t => Except.ok t
    | none => Except.error ("gdb.error: No type named " ++ matched.typeGrp)
  let base1 := if matched.vGrp then base0.volatile else base0
  let base2 := if matched.cGrp then base1.const else base1
  let base3 ←
    if matched.arrayGrp ≠ "" then
      (synthTagsFindall matched.arrayGrp.data).reverse.foldlM
        (fun b s => GType.arrayPyArg b (.inr ⟨s⟩)) base2
    else pure base2
  (val.cast base3.pointer).dereference

/-! ### `gdb_printers.py`: registry, tags, convenience variables -/

/-- Model of a child value yielded by a printer's `children()` generator: the
sources yield either a `gdb.Value` or a plain Python string (accessors may
return `str`, and the error placeholder is the string `"<error>"`). -/
inductive ChildVal where
  | gval (v : GValue)
  | pystr (s : String)

/-- Model of the `summary` entry of a printer / view specification: a
callable taking the value (and optionally a length budget) or a plain
string.  No claim depends on its shape. -/
def PrinterSummary := (GValue → Nat → String) ⊕ String

/-- Model of a `View` specification (`TypedDict` in the source).  A view
renderer built from a `node` constructor is modelled by the children list it
would produce (possibly raising).  The `elements` key appears only in the
spec and in commented-out source (`add_printer` example and the
`INCOMPLETE()` block of `ViewPrinter.children`); the dict may carry it, so
the model records it, and the live code never consults it. -/
structure View where
  name : String
  summary : Option PrinterSummary := none
  node : Option (GValue → Except String (List (String × ChildVal))) := none
  nodes : Option (List (String × (GValue → Except String ChildVal))) := none
  elements : Option (GValue → List (String × ChildVal)) := none

instance : Inhabited View := ⟨⟨"", none, none, none, none⟩⟩

/-- Model of a `Printer` specification (`TypedDict` in the source). -/
structure Printer where
  summary : Option PrinterSummary := none
  default_view : Option String := none
  views : Option (List View) := none

/-- Model of `_match_printer`.  The exact-name dict `_pretty_printers` is an
association list with unique keys queried by `List.lookup`; the regex list
`_pretty_printers_re` keeps registration order, each compiled pattern
abstracted as its `match` predicate on the type string; the loop returns the
first pattern that matches, and `None` otherwise. -/
def _match_printer (pps : List (String × Printer))
    (ppsRe : List ((String → Bool) × Printer)) (type_str : String) :
    Option Printer :=
  match pps.lookup type_str with
  | some printer => some printer
  | none => ppsRe.findSome? fun rp => if rp.1 type_str then some rp.2 else none

/-- Synthetic node tag kinds (`_MSG_ENUM_I` ... `_VIEW_ENUM`), each tag a
tuple of non-negative integers whose first component is the kind. -/
def _MSG_ENUM_I : Nat := 0

def _STATIC_ENUM_I : Nat := 1

def _STATIC_ENUM : List Nat := [_STATIC_ENUM_I]

def _RAW_ENUM_I : Nat := 2

def _RAW_ENUM : List Nat := [_RAW_ENUM_I]

def _CHUNK_ENUM_I : Nat := 3

def _CHUNK_ENUM (offset chunk_size : Nat) : List Nat :=
  [_CHUNK_ENUM_I, offset, chunk_size]

def _VIEW_ENUM_I : Nat := 4

def _VIEW_ENUM (view_index : Nat) : List Nat := [_VIEW_ENUM_I + view_index]

/-- Model of gdb's convenience-variable store (`gdb.convenience_variable`
returns `None` when a variable is unset; setting to `None` voids it). -/
def ConvState := String → Option GValue

/-- Model of `gdb.set_convenience_variable`. -/
def set_convenience_variable (st : ConvState) (name : String)
    (v : Option GValue) : ConvState :=
  fun n => if n = name then v else st n

/-- Model of `GdbConvenienceVars.__init__`: walk the pairs, and for each one
first test `name[0] == "$"` (raising `ValueError`—or `IndexError` on an empty
name—which aborts construction), then record the previous value and set the
variable.  A raise leaves the variables already set as they are: the `with`
block is never entered, so `__exit__` never restores them.  Errors carry the
store state at the moment of the raise. -/
def gdbConvenienceVarsInit :
    List (String × GValue) → ConvState → List (String × Option GValue) →
    Except (String × ConvState) (List (String × Option GValue) × ConvState)
  | [], st, saved => .ok (saved, st)
  | (name, value) :: rest, st, saved =>
      match name.data with
      | [] => .error ("IndexError: string index out of range", st)
      | c :: _ =>
          if c = '$' then
            .error
              ("ValueError: Convenience variable shouldn't start with $ unless used in gdb.parse_and_eval()",
                st)
          else
            gdbConvenienceVarsInit rest
              (set_convenience_variable st name (some value))
              (saved ++ [(name, st name)])

/-! ### `emit_chunked_elements` -/

/-- Model of Python's `range(start, stop, step)` for a non-negative `start`
and positive `step` (fuel-structural; `emit_chunked_elements` always steps by
`chunk_size > 0` from `0`). -/
def pyRangeAux : Nat → Nat → Int → Nat → List Nat
  | 0, _, _, _ => []
  | f + 1, start, stop, step =>
      if (start : Int) < stop then start :: pyRangeAux f (start + step) stop step
      else []

/-- Model of `range(0, stop, step)`. -/
def pyRange (stop : Int) (step : Nat) : List Nat :=
  pyRangeAux (stop.toNat + 1) 0 stop step

/-- Tier 1 of `emit_chunked_elements` (pointer fast path), taken when both
endpoints unwrap to raw pointers.  `ptr_add i` models the pointer value
`b_ptr + i`; `size` is the optional third component of the descriptor and
`diff` models `_to_int(e_ptr - b_ptr)`, the element count by pointer
subtraction. -/
def emit_chunked_ptr (ptr_add : Nat → GValue) (size : Option Int) (diff : Int)
    (chunk_size : Nat) : List (String × GValue) :=
  let length : Int := match size with | some s => s | none => diff
  (pyRange length chunk_size).map fun (i : Nat) =>
    let n : Nat :=
      if (i : Int) + chunk_size ≤ length then chunk_size else (length - i).toNat
    ("[" ++ decimal i ++ ".." ++ decimal (i + n - 1) ++ "]",
      make_enums_tag (ptr_add i) (_CHUNK_ENUM i n))

/-- Tier 2 of `emit_chunked_elements` (random-access iterators through the
C++ evaluator), taken when `_has_random_access` probes succeed.  `it_add i`
models `gdb.parse_and_eval("$_b + i")` and `diff` models
`_to_int(gdb.parse_and_eval("$_e - $_b"))`; the loop is the same as tier 1's. -/
def emit_chunked_ra (it_add : Nat → GValue) (size : Option Int) (diff : Int)
    (chunk_size : Nat) : List (String × GValue) :=
  let length : Int := match size with | some s => s | none => diff
  (pyRange length chunk_size).map fun (i : Nat) =>
    let n : Nat :=
      if (i : Int) + chunk_size ≤ length then chunk_size else (length - i).toNat
    ("[" ++ decimal i ++ ".." ++ decimal (i + n - 1) ++ "]",
      make_enums_tag (it_add i) (_CHUNK_ENUM i n))

/-- Inner loop of the forward-scan tier: advance `++$_it` while
`steps < limit`, breaking early at `end` when no `size` was given.
`at_end p` models `_at_end()` with the cursor `p` increments past `begin`
(it returns `False` when the equality evaluation raises `gdb.error`).
Returns the number of increments performed; recursion is on
`limit - steps`. -/
def scan_advance (at_end : Nat → Bool) (have_size : Bool) (pos : Nat) :
    Nat → Nat
  | 0 => 0
  | limit + 1 =>
      if !have_size && at_end pos then 0
      else 1 + scan_advance at_end have_size (pos + 1) limit

/-- Tier 3 of `emit_chunked_elements` (forward scan), as consumed by the
host: the Python generator is lazy, so `fuel` bounds the number of chunks the
consumer pulls (each outer `while` iteration yields at most one chunk, and
the loop exits only through its condition or the `steps == 0` break).
`it_val p` models `gdb.parse_and_eval("$_it")` after `p` increments; `i` and
`pos` both start at `0`. -/
def emit_chunked_scan (at_end : Nat → Bool) (it_val : Nat → GValue)
    (size : Option Int) (chunk_size : Nat) :
    Nat → Nat → Nat → List (String × GValue)
  | 0, _, _ => []
  | fuel + 1, i, pos =>
      let have_size := size.isSome
      let total : Int := match size with | some s => s | none => 0
      if (have_size && decide ((i : Int) < total)) || (!have_size && !at_end pos)
      then
        let limit : Nat :=
          if !have_size then chunk_size else min chunk_size (total - i).toNat
        let steps := scan_advance at_end have_size pos limit
        if steps = 0 then []
        else
          ("[" ++ decimal i ++ ".." ++ decimal (i + steps - 1) ++ "]",
            make_enums_tag (it_val pos) (_CHUNK_ENUM i steps)) ::
            emit_chunked_scan at_end it_val size chunk_size fuel (i + steps)
              (pos + steps)
      else []

/-! ### `summary()` -/

/-- The instance-field test used by `summary_fn`: the Python expression
`(getattr(field, "is_base_class", False) is False and getattr(field, "bitpos", False)) is not False`
selects exactly the fields that are not base-class sub-objects and do carry a
`bitpos` (i.e. occupy storage; gdb omits the attribute for static fields). -/
def summaryCond (f : GField) : Bool := !f.isBase && f.bitpos.isSome

instance : Inhabited GField := ⟨.mk none false none (.base false false "" [])⟩

/-- The second loop of `summary_fn` (`for field_i in range(i+1, ...)`); the
state is the accumulated string and `field_count`.  Once the accumulated
length has reached `max_len` the loop appends `", ..."` and breaks. -/
def summary_rest (field_entry : GField → String) (max_len : Nat) :
    List GField → String → Nat → String × Nat
  | [], s, count => (s, count)
  | f :: fs, s, count =>
      if summaryCond f then
        if max_len ≤ s.length then (s ++ ", ...", count)
        else summary_rest field_entry max_len fs (s ++ ", " ++ field_entry f)
          (count + 1)
      else summary_rest field_entry max_len fs s count

/-- Model of the closure returned by `summary(...)` (its `summary_fn`).  The
per-field rendering -- assembled in the factory from `named`,
`show_char_as_int` and the host's `gdb.default_visualizer` -- is abstracted
as `field_entry`; `fields` models `val.type.fields()` and `type_str` models
`str(val.type)`.  The first loop finds the first instance field, emitting
`"{...}"` if the two-character opening already reaches `max_len`; the second
loop appends the remaining instance fields until the length budget is
exhausted; with at least one field emitted the braces are closed, with none
the result is the literal `"{}"`; finally `show_type` prefixes the type
name. -/
def summary_fn (field_entry : GField → String) (show_type : Bool)
    (fields : List GField) (type_str : String) (max_len : Nat) : String :=
  let body :=
    match fields.findIdx? summaryCond with
    | none => "\x7b\x7d"
    | some j =>
        if max_len ≤ "\x7b ".length then "\x7b...\x7d"
        else
          let res := summary_rest field_entry max_len (fields.drop (j + 1))
            ("\x7b " ++ field_entry (fields.getD j default)) 1
          if res.2 ≠ 0 then res.1 ++ " \x7d" else "\x7b\x7d"
  if show_type then type_str ++ " " ++ body else body

/-! ### The printers' `children()` -/

/-- Model of member access `val[field.name]`: the member value at the field's
offset within the object. -/
def GValue.getField (v : GValue) (f : GField) : GValue :=
  ⟨f.ftype, v.loc + (f.bitpos.getD 0) / 8⟩

/-- Field loop of `emit_raw_children`: skip unnamed fields; a base-class
field yields the value cast to a reference to the base type looked up by
name (`gdb.lookup_type(field.name).reference()`; a lookup failure raises,
which the surrounding `try`/`except` turns into the end of the generator);
a field with a `bitpos` yields the member value. -/
def emitRawAux (lookup_type : String → Option GType) (val : GValue) :
    List GField → List (String × ChildVal)
  | [] => []
  | f :: fs =>
      match f.fname with
      | none => emitRawAux lookup_type val fs
      | some nm =>
          if f.isBase then
            match lookup_type nm with
            | some bt =>
                (nm ++ " (base)", .gval (val.cast bt.reference)) ::
                  emitRawAux lookup_type val fs
            | none => []
          else
            match f.bitpos with
            | some _ => (nm, .gval (val.getField f)) :: emitRawAux lookup_type val fs
            | none => emitRawAux lookup_type val fs

/-- Model of `emit_raw_children`: nothing for an array type; otherwise walk
the type's fields (a `fields()` failure on a non-composite type is caught and
yields nothing). -/
def emit_raw_children (lookup_type : String → Option GType) (val : GValue) :
    List (String × ChildVal) :=
  match val.type with
  | .arr _ _ => []
  | t =>
      match t.fields with
      | none => []
      | some fs => emitRawAux lookup_type val fs

/-- Model of `has_static`: true iff some field of the value's type has no
`bitpos`; a `fields()` failure is caught and gives `False`. -/
def has_static (val : GValue) : Bool :=
  match val.type.fields with
  | some fs => fs.any fun f => f.bitpos.isNone
  | none => false

/-- The `nodes` loop of `ViewPrinter.children`.  Each entry's accessor is
evaluated twice: first inside the f-string argument of `log(...)` -- which is
*outside* the `try` block, so a failure there propagates out of the
generator -- and then inside the `try`, whose `except` yields the entry with
the inline `"<error>"` marker instead. -/
def viewNodesAux (val : GValue) :
    List (String × (GValue → Except String ChildVal)) →
    Except String (List (String × ChildVal))
  | [] => .ok []
  | (nm, func) :: rest =>
      match func val with
      | .error e => .error e
      | .ok _ =>
          match func val with
          | .ok fv => (viewNodesAux val rest).map fun l => (nm, fv) :: l
          | .error _ =>
              (viewNodesAux val rest).map fun l => (nm, ChildVal.pystr "<error>") :: l

/-- Model of `ViewPrinter.children`: a `node` constructor delegates entirely
to the nested renderer; otherwise the `nodes` list is iterated; the
`elements` key is only referenced by commented-out code (`INCOMPLETE()`), so
it is never consulted and the generator then ends. -/
def viewPrinter_children (val : GValue) (view : View) :
    Except String (List (String × ChildVal)) :=
  match view.node with
  | some ctor => ctor val
  | none =>
      match view.nodes with
      | some ns => viewNodesAux val ns
      | none => .ok []

/-- Model of `DefaultPrinter.get_view_named`: the first declared view with
the given name, if any. -/
def get_view_named (printer : Option Printer) (nm : String) : Option View :=
  match printer with
  | some p =>
      match p.views with
      | some vs => vs.find? fun v => v.name = nm
      | none => none
  | none => none

/-- Model of `DefaultPrinter.count_views`. -/
def count_views (printer : Option Printer) : Nat :=
  match printer with
  | some p => match p.views with | some vs => vs.length | none => 0
  | none => 0

/-- Model of `DefaultPrinter.view_name`. -/
def view_name (printer : Option Printer) (index : Nat) : String :=
  match printer with
  | some p =>
      match p.views with
      | some vs =>
          match vs[index]? with
          | some v => v.name
          | none => "View " ++ decimal index
      | none => "View " ++ decimal index
  | none => "View " ++ decimal index

/-- Python comparison `view_name != default_view_name` where the right side
is `Optional[str]`: comparing a `str` with `None` is always unequal. -/
def neOptStr (vn : String) : Option String → Bool
  | some d => vn ≠ d
  | none => true

/-- Model of `DefaultPrinter.children`: the top-level part is the raw
children when there are no views or no `default_view`, nothing when the
declared `default_view` resolves to no view (the source `pass`es), and the
default view's children otherwise; then a `"<Static>"` tag iff `has_static`,
then -- only when there are views -- a `"<Raw>"` tag if a `default_view` is
declared, and one `"<name>"` tag for every view index whose name differs
from the `default_view` name, in declaration order. -/
def defaultPrinter_children (lookup_type : String → Option GType)
    (val : GValue) (printer : Option Printer) :
    Except String (List (String × ChildVal)) :=
  let view_count := count_views printer
  let default_view_name : Option String :=
    match printer with
    | some p => p.default_view
    | none => none
  let default_view : Option View :=
    match default_view_name with
    | some nm => get_view_named printer nm
    | none => none
  let topE : Except String (List (String × ChildVal)) :=
    if view_count = 0 ∨ default_view_name = none then
      .ok (emit_raw_children lookup_type val)
    else
      match default_view with
      | none => .ok []
      | some dv => viewPrinter_children val dv
  topE.map fun top =>
    top
      ++ (if has_static val then
            [("<Static>", ChildVal.gval (make_enums_tag val _STATIC_ENUM))]
          else [])
      ++ (if view_count > 0 then
            (if default_view_name ≠ none then
              [("<Raw>", ChildVal.gval (make_enums_tag val _RAW_ENUM))]
            else [])
              ++ (List.range view_count).filterMap fun i =>
                let vn := view_name printer i
                if neOptStr vn default_view_name then
                  some ("<" ++ vn ++ ">",
                    ChildVal.gval (make_enums_tag val (_VIEW_ENUM i)))
                else none
          else [])

/-! ### Statements of the spec's claims, as written

The following definitions follow the *claims'* wording (not the source);
each is compared against the source-derived definitions above. -/

/-- C7 as stated: the synthetic type wraps the value's own type in one
fixed-size-array constructor per tag component with array size
`component + 1`, then exactly four levels of pointer indirection. -/
def claimedEnumsTagType (t : GType) (enum_tuple : List Nat) : GType :=
  let array_type := enum_tuple.foldr (fun e acc => GType.arr acc (e + 1)) t
  array_type.pointer.pointer.pointer.pointer

/-- C4 as stated, for a spec whose `views` resolve the default view at index
`dvIdx`: first the default view's children, then a `"<Static>"` entry iff the
type has fields without storage, then a `"<Raw>"` entry whenever any view
exists, then one `"<name>"` entry per declared view other than the default
(every index except `dvIdx`), in declaration order. -/
def claimedTopChildren (val : GValue) (views : List View) (dvIdx : Nat) :
    Except String (List (String × ChildVal)) :=
  (viewPrinter_children val (views.getD dvIdx default)).map fun top =>
    top
      ++ (if has_static val then
            [("<Static>", ChildVal.gval (make_enums_tag val _STATIC_ENUM))]
          else [])
      ++ (if views.length > 0 then
            [("<Raw>", ChildVal.gval (make_enums_tag val _RAW_ENUM))]
          else [])
      ++ (List.range views.length).filterMap fun i =>
          if i ≠ dvIdx then
            some ("<" ++ (views.getD i default).name ++ ">",
              ChildVal.gval (make_enums_tag val (_VIEW_ENUM i)))
          else none

/-- C9 as stated: for a view with a `nodes` list, the child sequence is the
`nodes` entries in declared order (each evaluated, a failure reported as the
inline `"<error>"` marker) followed by the elements of the view's lazy
`elements` sequence. -/
def claimedViewChildren (val : GValue) (view : View) :
    List (String × ChildVal) :=
  (match view.nodes with
   | some ns =>
      ns.map fun p =>
        (p.1,
          match p.2 val with
          | .ok cv => cv
          | .error _ => ChildVal.pystr "<error>")
   | none => [])
    ++ (match view.elements with
        | some g => g val
        | none => [])

/-- The chunk decomposition claimed for a sequence of length `N` with chunk
size `k`: `ceil(N/k)` chunks, the `j`-th at offset `j*k` with size
`min k (N - j*k)` (so every chunk but possibly the last has size `k`). -/
def chunkSpec (N k : Nat) : List (Nat × Nat) :=
  (List.range ((N + k - 1) / k)).map fun j => (j * k, min k (N - j * k))

/-- The label of a chunk of size `n` starting at offset `o`: the inclusive
index range `"[o..o+n-1]"`. -/
def chunkLabel (o n : Nat) : String :=
  "[" ++ decimal o ++ ".." ++ decimal (o + n - 1) ++ "]"

/-! ### Concrete fixtures and helper definitions used by the theorems -/

/-- Iterated pointer type (`T`, `T*`, `T**`, ...). -/
def ptrIter : Nat → GType → GType
  | 0, t => t
  | k + 1, t => .ptr (ptrIter k t)

/-- Well-formedness of a base type name for the tag codec: nonempty, free of
`*`, `(` and newline (so the lazy scan of `SYNTH_TAG_TYPE_RE` cannot match
inside it), and not such that the rendered `name ++ " "` starts with the
literal `"const "` or `"volatile "` (so the qualifier groups behave
deterministically).  Ordinary C/C++ type names satisfy this. -/
def wfTagBaseName (name : String) : Bool :=
  !name.data.isEmpty
    && name.data.all (fun c => !(c = '*' || c = '(' || c = '\n'))
    && (dropLit "const ".data (name.data ++ [' '])).isNone
    && (dropLit "volatile ".data (name.data ++ [' '])).isNone

/-- The digit captures the tags group carries for tag tuple `ts`. -/
def tagCaps (ts : List Nat) : List (List Char) :=
  ts.map fun e => (decimal e).data

/-- Largest rendered length of an instance field's entry text, used to bound
the summary formatter's output. -/
def maxEntryLen (field_entry : GField → String) (fields : List GField) : Nat :=
  ((fields.filter summaryCond).map fun f => (field_entry f).length).foldr max 0

/-- Concatenation of `", " ++ entry` texts for a run of fields, the shape a
fully emitted (untruncated) summary tail has. -/
def joinEntries (field_entry : GField → String) (fs : List GField) : String :=
  fs.foldr (fun f acc => ", " ++ field_entry f ++ acc) ""

/-- The `int` base type. -/
def intType : GType := .base false false "int" []

/-- A value of type `int [5]` (five-element array) at address 4096. -/
def intArr5Val : GValue := ⟨.arr intType 5, 4096⟩

/-- A plain `int` value at address 4096. -/
def intVal : GValue := ⟨intType, 4096⟩

/-- Host environment for `gdb.lookup_type` in the concrete codec theorems:
resolves the text of the regex's `type` group (`"int "`, trailing space
included, exactly as gdb's whitespace-insensitive type parser does). -/
def intEnv : String → Option GType := fun s => if s = "int " then some intType else none

/-- A struct value used by the C3 evidence. -/
def sVal : GValue := ⟨.base false false "S" [], 256⟩

/-- A view whose first accessor raises `gdb.error` and whose second sibling
accessor succeeds. -/
def c3View : View :=
  { name := "V",
    nodes := some
      [("x", fun _ => .error "gdb.error: There is no member named x."),
        ("y", fun v => .ok (.gval v))] }

/-- Scenario A views (`Components` / `Alpha` / `Statistics`). -/
def componentsView : View :=
  { name := "Components", nodes := some [("red", fun v => .ok (.gval v))] }

def alphaView : View :=
  { name := "Alpha",
    nodes := some
      [("raw", fun v => .ok (.gval v)), ("normalized", fun _ => .ok (.pystr "0.5"))] }

def statisticsView : View :=
  { name := "Statistics", nodes := some [("brightness", fun _ => .ok (.pystr "1"))] }

/-- A `Color` type with one instance field and one field without storage. -/
def colorType : GType :=
  .base false false "Color"
    [.mk (some "r") false (some 0) intType, .mk (some "palette") false none intType]

def colorVal : GValue := ⟨colorType, 512⟩

/-- Scenario A printer: three named views, `default_view = "Alpha"`. -/
def colorPrinter : Printer :=
  { default_view := some "Alpha",
    views := some [componentsView, alphaView, statisticsView] }

/-- A view named `"A"`, registered twice in `dupPrinter`. -/
def dupView : View := { name := "A", nodes := some [("x", fun _ => .ok (.pystr "xv"))] }

/-- A printer declaring two views that share the default view's name. -/
def dupPrinter : Printer := { default_view := some "A", views := some [dupView, dupView] }

/-- A forward-iterator cursor model for the C5 evidence. -/
def c5ItVal : Nat → GValue := fun p => ⟨.base false false "FwdIt" [], 700 + p⟩

/-- A per-field entry renderer for the C6 evidence. -/
def c6Entry : GField → String := fun f => (f.fname.getD "f") ++ "=1"

/-- An instance field named `nm`. -/
def c6Field (nm : String) : GField := .mk (some nm) false (some 0) intType

def c6Fields : List GField := [c6Field "a", c6Field "b", c6Field "c"]

/-- A view with a `nodes` list and an `elements` generator. -/
def c9View : View :=
  { name := "Elems",
    nodes := some [("a", fun _ => .ok (.pystr "av"))],
    elements := some fun _ => [("[0]", .pystr "e0")] }

/-- Two distinguishable printers for the C8 witness. -/
def c8P0 : Printer := {}

def c8P1 : Printer := { default_view := some "p1" }

def c10Val : GValue := ⟨intType, 64⟩

/-- The empty convenience-variable store. -/
def c10St : ConvState := fun _ => none

/-- Concrete `b_ptr + i` model for the C2 witness (int pointer). -/
def c2PtrAdd : Nat → GValue := fun i => ⟨.ptr intType, 1024 + 4 * i⟩

/-- Concrete iterator-value model for the C2 witness. -/
def c2ItVal : Nat → GValue := fun p => ⟨.base false false "Iter" [], 900 + p⟩

/-! ### Helper lemmas -/

theorem scan_advance_at_end_false (hs : Bool) :
    ∀ (limit pos : Nat), scan_advance (fun _ => false) hs pos limit = limit := by
  intro limit
  induction limit with
  | zero => intro pos; rfl
  | succ l ih =>
      intro pos
      simp [scan_advance, ih, Nat.add_comm]

theorem emit_chunked_scan_no_end (it_val : Nat → GValue) (k : Nat) (hk : 0 < k) :
    ∀ (fuel s : Nat),
      emit_chunked_scan (fun _ => false) it_val none k fuel s s =
        (List.range fuel).map fun j =>
          (chunkLabel (s + j * k) k,
            make_enums_tag (it_val (s + j * k)) (_CHUNK_ENUM (s + j * k) k)) := by
  intro fuel
  induction fuel with
  | zero => intro s; rfl
  | succ f ih =>
      intro s
      rw [emit_chunked_scan]
      have hk' : ¬(k = 0) := Nat.pos_iff_ne_zero.mp hk
      simp only [Option.isSome_none, Bool.false_and, Bool.not_false,
        Bool.false_or, Bool.and_true, Bool.not_true, Bool.true_and,
        scan_advance_at_end_false, hk', if_false, if_true, ite_false, ite_true]
      rw [List.range_succ_eq_map, List.map_cons, List.map_map]
      rw [ih (s + k)]
      refine congrArg₂ List.cons ?_ (List.map_congr_left fun j hj => ?_)
      · simp [chunkLabel]
      · have hjk : s + k + j * k = s + (j + 1) * k := by ring
        simp [Function.comp, chunkLabel, hjk]

theorem viewNodesAux_all_ok (val : GValue) :
    ∀ ns, (∀ p ∈ ns, ∃ cv, p.2 val = Except.ok cv) →
      viewNodesAux val ns =
        .ok (ns.map fun p =>
          (p.1,
            match p.2 val with
            | .ok cv => cv
            | .error _ => ChildVal.pystr "<error>")) := by
  intro ns
  induction ns with
  | nil => intro _; rfl
  | cons p rest ih =>
      intro h
      obtain ⟨cv, hcv⟩ := h p (List.mem_cons_self _ _)
      have ihr := ih fun q hq => h q (List.mem_cons_of_mem _ hq)
      obtain ⟨nm, f⟩ := p
      simp only at hcv
      simp [viewNodesAux, hcv, ihr, Except.map]

theorem gdbConvenienceVarsInit_dollar_aux (bad : String) (v : GValue)
    (rest : List (String × GValue)) (hbad : bad.data.head? = some '$') :
    ∀ (pre : List (String × GValue)) (st : ConvState)
      (saved : List (String × Option GValue)),
      (∀ p ∈ pre, p.1.data ≠ [] ∧ p.1.data.head? ≠ some '$') →
      gdbConvenienceVarsInit (pre ++ (bad, v) :: rest) st saved =
        .error
          ("ValueError: Convenience variable shouldn't start with $ unless used in gdb.parse_and_eval()",
            pre.foldl (fun s p => set_convenience_variable s p.1 (some p.2)) st) := by
  intro pre
  induction pre with
  | nil =>
      intro st saved _
      match hb : bad.data with
      | [] => rw [hb] at hbad; simp at hbad
      | c :: cs =>
          rw [hb] at hbad
          simp at hbad
          simp [gdbConvenienceVarsInit, hb, hbad]
  | cons p pre ih =>
      intro st saved h
      obtain ⟨h1, h2⟩ := h p (List.mem_cons_self _ _)
      obtain ⟨nm, pv⟩ := p
      simp only at h1 h2
      match hn : nm.data with
      | [] => exact absurd hn h1
      | c :: cs =>
          rw [hn] at h2
          simp at h2
          simp [gdbConvenienceVarsInit, hn, h2,
            ih _ _ fun q hq => h q (List.mem_cons_of_mem _ hq)]

/-! ### The claims -/

/-- C1: the claim states that decoding the synthetic value produced by
encoding returns exactly `(v, t)` for every value `v` and tag tuple `t`, and
that this also holds when `v`'s type has trailing fixed-size array
dimensions.  The code contradicts the trailing-array case: `recover_value`
feeds the strings returned by `re.findall` straight into `gdb.Type.array`
(which requires an integer, so the call raises `TypeError`; even converted,
`array(n)` takes an *inclusive upper bound*, so the rebuilt dimension would
be `n+1` elements).  At the failing input -- an `int [5]` value tagged with
`(3,)` -- the tag tuple still extracts, the round trip succeeds for the same
value without the trailing dimension, but `recover_value` raises. -/
theorem c1_trailing_array_roundtrip_bug :
    extract_enums_tag (make_enums_tag intArr5Val [3]) = .ok [3] ∧
    recover_value intEnv (make_enums_tag intArr5Val [3]) =
      .error "TypeError: an integer is required" ∧
    extract_enums_tag (make_enums_tag intVal [3]) = .ok [3] ∧
    recover_value intEnv (make_enums_tag intVal [3]) = .ok intVal :=
  ⟨rfl, rfl, rfl, rfl⟩

/-- C3: the claim states that any failure while invoking an accessor during
rendering is caught and surfaced as an inline `"<error>"` placeholder while
sibling children are still produced.  The code contradicts this: in the
`nodes` branch of `ViewPrinter.children` the accessor is first evaluated
inside the f-string argument of `log(...)`, *outside* the `try` block, so
the failure propagates out of the generator -- the `try`/`except` right
below it (which would yield the `"<error>"` placeholder) shows the intended
behaviour.  At the failing input, a view whose first accessor raises and
whose second succeeds, `children()` raises instead of yielding
`("x", "<error>")` and `("y", ...)`. -/
theorem c3_view_child_error_propagates :
    viewPrinter_children sVal c3View =
      .error "gdb.error: There is no member named x." :=
  rfl

/-- C5 (counterexample): the claim states that with no `size` and a failing
equality test the scan yields exactly one chunk of `chunk_size` elements and
then stops; in fact `_at_end` swallows the `gdb.error` and returns `False`,
so the outer loop never exits -- a consumer pulling twice already receives
two full chunks. -/
theorem c5_forward_scan_counterexample :
    (emit_chunked_scan (fun _ => false) c5ItVal none 16 2 0 0).map Prod.fst =
      ["[0..15]", "[16..31]"] :=
  rfl

/-- C5 (amended): with no `size` and an equality test whose evaluation always
fails (`_at_end` catches the `gdb.error` and returns `False`), the forward
scan never detects the end: every pull of the lazy generator yields one more
chunk of exactly `chunk_size` elements, the `j`-th labelled
`"[j*k..j*k+k-1]"` -- it does not stop after the first chunk. -/
theorem c5_forward_scan_unbounded (it_val : Nat → GValue) (k : Nat)
    (hk : 0 < k) (fuel : Nat) :
    emit_chunked_scan (fun _ => false) it_val none k fuel 0 0 =
      (List.range fuel).map fun j =>
        (chunkLabel (j * k) k,
          make_enums_tag (it_val (j * k)) (_CHUNK_ENUM (j * k) k)) := by
  have h := emit_chunked_scan_no_end it_val k hk fuel 0
  simpa using h

/-- C5 (witness): two pulls of a 16-element-chunk scan with no size and a
failing equality test yield the chunks at offsets 0 and 16. -/
theorem c5_forward_scan_unbounded_witness :
    emit_chunked_scan (fun _ => false) c5ItVal none 16 2 0 0 =
      (List.range 2).map fun j =>
        (chunkLabel (j * 16) 16,
          make_enums_tag (c5ItVal (j * 16)) (_CHUNK_ENUM (j * 16) 16)) :=
  c5_forward_scan_unbounded c5ItVal 16 (by decide) 2

/-- C7 (counterexample): the claim states that each tag component becomes an
array dimension of size `component + 1` wrapped directly around the value's
type (so a `0` component yields a non-empty dimension).  In fact
`make_enums_tag` wraps a *pointer* to the value's type and calls
`array(enum - 1)`, whose argument is gdb's inclusive upper bound, so the
dimension has exactly `component` elements and a `0` component yields the
zero-length dimension `[0]`: for an `int` value tagged `(0,)` the built type
prints as `int *(****)[0]`, while the claimed construction would print
`int (****)[1]`; for the tag `(2,)` the dimensions are `[2]` versus the
claimed `[3]`. -/
theorem c7_array_size_counterexample :
    typeToString (make_enums_tag intVal [0]).type = "int *(****)[0]" ∧
    typeToString (claimedEnumsTagType intVal.type [0]) = "int (****)[1]" ∧
    typeToString (make_enums_tag intVal [2]).type = "int *(****)[2]" ∧
    typeToString (claimedEnumsTagType intVal.type [2]) = "int (****)[3]" :=
  ⟨rfl, rfl, rfl, rfl⟩

theorem make_enums_tag_eq (val : GValue) (ts : List Nat) :
    make_enums_tag val ts =
      ⟨.ptr (.ptr (.ptr (.ptr
          (ts.foldr (fun e acc => GType.arr acc e) (.ptr val.type))))),
        val.loc⟩ := by
  unfold make_enums_tag
  simp only [GValue.address, GValue.cast, GType.pointer, List.foldl_reverse]
  have harr : ∀ (y : GType) (x : Nat), GType.array y ((x : Int) - 1) = GType.arr y x := by
    intro y x
    unfold GType.array
    congr 1
    omega
  have h : ∀ (l : List Nat) (b : GType),
      l.foldr (fun (x : Nat) (y : GType) => GType.array y ((x : Int) - 1)) b =
        l.foldr (fun e acc => GType.arr acc e) b := by
    intro l b
    induction l with
    | nil => rfl
    | cons e l ih => simp only [List.foldr_cons, ih, harr]
  rw [h]

/-- C7 (amended): for every value and tag tuple, `make_enums_tag` builds the
synthetic type by wrapping a *pointer to* the value's type in one fixed-size
array constructor per tag component whose element count is exactly the
component (the gdb call `array(component - 1)` takes an inclusive upper
bound, so a `0` component yields a legal zero-length dimension), the first
component outermost, and then wraps the result behind exactly four levels of
pointer indirection; the synthetic value is the value's address cast to that
type. -/
theorem c7_make_enums_tag_shape (val : GValue) (ts : List Nat) :
    make_enums_tag val ts =
      ⟨.ptr (.ptr (.ptr (.ptr
          (ts.foldr (fun e acc => GType.arr acc e) (.ptr val.type))))),
        val.loc⟩ :=
  make_enums_tag_eq val ts

/-- C9 (counterexample): the claim states that a view with both a `nodes`
list and an `elements` generator yields the nodes entries followed by the
elements sequence; in fact the `elements` support in `ViewPrinter.children`
is commented out (`INCOMPLETE()`), so for a view with one node entry and a
one-element `elements` sequence the children are just `["a"]` while the
claimed sequence is `["a", "[0]"]`. -/
theorem c9_elements_ignored_counterexample :
    (viewPrinter_children sVal c9View).map (List.map Prod.fst) = .ok ["a"] ∧
    (claimedViewChildren sVal c9View).map Prod.fst = ["a", "[0]"] :=
  ⟨rfl, rfl⟩

/-- C9 (amended): for a view specification with a `nodes` list (and no
`node` constructor), the child sequence consists of exactly the `nodes`
entries in declared order -- the `elements` generator is never consulted
(its support is commented out in the source), so the result is unchanged
under any value of the `elements` key. -/
theorem c9_view_children_nodes_only (val : GValue) (view : View)
    (ns : List (String × (GValue → Except String ChildVal)))
    (hnode : view.node = none) (hnodes : view.nodes = some ns)
    (hok : ∀ p ∈ ns, ∃ cv, p.2 val = Except.ok cv) :
    viewPrinter_children val view =
      .ok (ns.map fun p =>
        (p.1,
          match p.2 val with
          | .ok cv => cv
          | .error _ => ChildVal.pystr "<error>")) ∧
    ∀ els, viewPrinter_children val { view with elements := els } =
      viewPrinter_children val view := by
  refine ⟨?_, ?_⟩
  · rw [viewPrinter_children, hnode, hnodes]
    exact viewNodesAux_all_ok val ns hok
  · intro els
    cases view
    simp [viewPrinter_children]

/-- C9 (witness): the amended statement at the concrete view `c9View`. -/
theorem c9_view_children_nodes_only_witness :
    (viewPrinter_children sVal c9View = .ok [("a", ChildVal.pystr "av")]) ∧
    ∀ els, viewPrinter_children sVal { c9View with elements := els } =
      viewPrinter_children sVal c9View :=
  c9_view_children_nodes_only sVal c9View _ rfl rfl
    (by
      rintro p hp
      rw [List.mem_singleton] at hp
      subst hp
      exact ⟨ChildVal.pystr "av", rfl⟩)

/-- C10: constructing `GdbConvenienceVars` from pairs in which some name
begins with `"$"` raises `ValueError` at the first such name; the pairs that
precede it (ordinary nonempty names) have already been recorded and set as
convenience variables at that point, and since the raise prevents the `with`
block from ever being entered, `__exit__` never restores them -- the failed
construction leaves the store equal to the initial store updated by exactly
the preceding pairs. -/
theorem c10_convenience_vars_dollar (pre rest : List (String × GValue))
    (bad : String) (v : GValue) (st : ConvState)
    (hpre : ∀ p ∈ pre, p.1.data ≠ [] ∧ p.1.data.head? ≠ some '$')
    (hbad : bad.data.head? = some '$') :
    gdbConvenienceVarsInit (pre ++ (bad, v) :: rest) st [] =
      .error
        ("ValueError: Convenience variable shouldn't start with $ unless used in gdb.parse_and_eval()",
          pre.foldl (fun s p => set_convenience_variable s p.1 (some p.2)) st) :=
  gdbConvenienceVarsInit_dollar_aux bad v rest hbad pre st [] hpre

/-- C10 (witness): constructing with `[("pp_b", v), ("$pp_e", v)]` raises
`ValueError` and leaves `pp_b` set. -/
theorem c10_convenience_vars_dollar_witness :
    gdbConvenienceVarsInit [("pp_b", c10Val), ("$pp_e", c10Val)] c10St [] =
      .error
        ("ValueError: Convenience variable shouldn't start with $ unless used in gdb.parse_and_eval()",
          [("pp_b", c10Val)].foldl
            (fun s p => set_convenience_variable s p.1 (some p.2)) c10St) :=
  c10_convenience_vars_dollar [("pp_b", c10Val)] [] "$pp_e" c10Val c10St
    (by
      rintro p hp
      rw [List.mem_singleton] at hp
      subst hp
      exact ⟨by decide, by decide⟩)
    rfl

theorem findSome?_match_iff (ts : String) :
    ∀ (l : List ((String → Bool) × Printer)) (q : Printer),
      (l.findSome? (fun rp => if rp.1 ts then some rp.2 else none) = some q ↔
        ∃ l₁ rp l₂, l = l₁ ++ rp :: l₂ ∧ (∀ x ∈ l₁, x.1 ts = false) ∧
          rp.1 ts = true ∧ q = rp.2) := by
  intro l
  induction l with
  | nil =>
      intro q
      constructor
      · intro h
        simp [List.findSome?] at h
      · rintro ⟨l₁, rp, l₂, h, -, -, -⟩
        exact absurd h.symm
          (List.append_ne_nil_of_right_ne_nil l₁ (List.cons_ne_nil rp l₂))
  | cons x xs ih =>
      intro q
      by_cases hx : x.1 ts = true
      · simp only [List.findSome?, hx, if_true]
        constructor
        · intro h
          exact ⟨[], x, xs, rfl, by simp, hx, (Option.some_inj.mp h).symm⟩
        · rintro ⟨l₁, rp, l₂, hl, hfalse, htrue, hq⟩
          cases l₁ with
          | nil =>
              simp only [List.nil_append] at hl
              injection hl with h1 h2
              rw [hq, h1]
          | cons y l₁' =>
              injection hl with h1 h2
              have hy : y.1 ts = false := hfalse y (List.mem_cons_self _ _)
              rw [← h1, hx] at hy
              exact absurd hy (by simp)
      · have hx' : x.1 ts = false := by
          cases hxx : x.1 ts with
          | false => rfl
          | true => exact absurd hxx hx
        have hstep :
            List.findSome? (fun rp => if rp.1 ts = true then some rp.2 else none)
                (x :: xs) =
              List.findSome? (fun rp => if rp.1 ts = true then some rp.2 else none)
                xs := by
          simp [List.findSome?, hx']
        rw [hstep, ih q]
        constructor
        · rintro ⟨l₁, rp, l₂, hl, hfalse, htrue, hq⟩
          refine ⟨x :: l₁, rp, l₂, by rw [hl, List.cons_append], ?_, htrue, hq⟩
          intro y hy
          rcases List.mem_cons.mp hy with h | h
          · rw [h]; exact hx'
          · exact hfalse y h
        · rintro ⟨l₁, rp, l₂, hl, hfalse, htrue, hq⟩
          cases l₁ with
          | nil =>
              simp only [List.nil_append] at hl
              injection hl with h1 h2
              rw [← h1, hx'] at htrue
              exact absurd htrue (by simp)
          | cons y l₁' =>
              injection hl with h1 h2
              exact ⟨l₁', rp, l₂, h2,
                fun z hz => hfalse z (List.mem_cons_of_mem _ hz), htrue, hq⟩

/-- C8: `_match_printer` consults the exact-name table first, so an
exact-name registration for `T` always wins, for *every* state of the
pattern registry; when no exact-name registration exists, the result is
`some q` exactly when the pattern list splits as non-matching patterns
followed by a first pattern that matches `T` with spec `q` (first match in
registration order wins); and when additionally no pattern matches,
resolution returns none. -/
theorem c8_registry_precedence (pps : List (String × Printer))
    (ppsRe : List ((String → Bool) × Printer)) (ts : String) :
    (∀ p, pps.lookup ts = some p → _match_printer pps ppsRe ts = some p) ∧
    (pps.lookup ts = none → ∀ q,
      (_match_printer pps ppsRe ts = some q ↔
        ∃ l₁ rp l₂, ppsRe = l₁ ++ rp :: l₂ ∧ (∀ x ∈ l₁, x.1 ts = false) ∧
          rp.1 ts = true ∧ q = rp.2)) ∧
    (pps.lookup ts = none → (∀ rp ∈ ppsRe, rp.1 ts = false) →
      _match_printer pps ppsRe ts = none) := by
  refine ⟨?_, ?_, ?_⟩
  · intro p hp
    simp [_match_printer, hp]
  · intro h q
    simp only [_match_printer, h]
    exact findSome?_match_iff ts ppsRe q
  · intro h hall
    simp only [_match_printer, h]
    match hfs : ppsRe.findSome? (fun rp => if rp.1 ts then some rp.2 else none) with
    | none => exact hfs
    | some q =>
        obtain ⟨l₁, rp, l₂, hl, -, htrue, -⟩ :=
          (findSome?_match_iff ts ppsRe q).mp hfs
        have hmem : rp ∈ ppsRe := by
          rw [hl]
          exact List.mem_append_right _ (List.mem_cons_self _ _)
        rw [hall rp hmem] at htrue
        exact absurd htrue (by simp)

/-- C8 (witness): with an exact registration for `"Color"` and a pattern
that matches every type string, resolution of `"Color"` returns the exact
spec. -/
theorem c8_registry_precedence_witness :
    _match_printer [("Color", c8P0)] [(fun _ => true, c8P1)] "Color" =
      some c8P0 :=
  (c8_registry_precedence [("Color", c8P0)] [(fun _ => true, c8P1)] "Color").1
    c8P0 rfl

theorem le_foldr_max : ∀ (l : List Nat) (x : Nat), x ∈ l → x ≤ l.foldr max 0 := by
  intro l
  induction l with
  | nil => intro x hx; exact absurd hx (List.not_mem_nil x)
  | cons a l ih =>
      intro x hx
      rcases List.mem_cons.mp hx with h | h
      · rw [h, List.foldr_cons]; exact Nat.le_max_left _ _
      · exact Nat.le_trans (ih x h) (Nat.le_max_right _ _)

theorem maxEntryLen_le (fe : GField → String) (fields : List GField)
    (f : GField) (hf : f ∈ fields) (hc : summaryCond f = true) :
    (fe f).length ≤ maxEntryLen fe fields := by
  apply le_foldr_max
  exact List.mem_map_of_mem _ (List.mem_filter.mpr ⟨hf, hc⟩)

theorem findIdx?_spec {α : Type} [Inhabited α] (p : α → Bool) :
    ∀ (l : List α) (i j : Nat), l.findIdx? p i = some j →
      i ≤ j ∧ j - i < l.length ∧ p (l.getD (j - i) default) = true ∧
        l.getD (j - i) default ∈ l := by
  intro l
  induction l with
  | nil => intro i j h; simp [List.findIdx?] at h
  | cons a l ih =>
      intro i j h
      rw [List.findIdx?] at h
      by_cases ha : p a = true
      · rw [if_pos ha] at h
        have hj : j = i := (Option.some_inj.mp h).symm
        subst hj
        simp [ha]
      · rw [if_neg ha] at h
        obtain ⟨h1, h2, h3, h4⟩ := ih (i + 1) j h
        have hji : j - i = (j - (i + 1)) + 1 := by omega
        refine ⟨by omega, by simp [hji]; omega, ?_, ?_⟩
        · rw [hji]; simpa using h3
        · rw [hji]; exact List.mem_cons_of_mem a (by simpa using h4)

theorem summary_rest_fst_len (fe : GField → String) (ml M : Nat) :
    ∀ (fs : List GField) (s : String) (c : Nat),
      (∀ f ∈ fs, summaryCond f = true → (fe f).length ≤ M) →
      (summary_rest fe ml fs s c).1.length ≤ max s.length (ml + 1 + M) + 5 := by
  intro fs
  induction fs with
  | nil =>
      intro s c _
      have := Nat.le_max_left s.length (ml + 1 + M)
      simp only [summary_rest]
      omega
  | cons f fs ih =>
      intro s c h
      by_cases hc : summaryCond f = true
      · by_cases hl : ml ≤ s.length
        · simp only [summary_rest, hc, if_true, if_pos hl]
          rw [String.length_append]
          have := Nat.le_max_left s.length (ml + 1 + M)
          have h5 : ("" ++ ", ...").length = 5 := rfl
          simp at h5
          omega
        · simp only [summary_rest, hc, if_true, if_neg hl]
          have hM : (fe f).length ≤ M := h f (List.mem_cons_self _ _) hc
          have ihr := ih (s ++ ", " ++ fe f) (c + 1)
            fun g hg hgc => h g (List.mem_cons_of_mem _ hg) hgc
          have hlen : (s ++ ", " ++ fe f).length = s.length + 2 + (fe f).length := by
            rw [String.length_append, String.length_append]
            have h2 : (", " : String).length = 2 := rfl
            omega
          have hle : (s ++ ", " ++ fe f).length ≤ ml + 1 + M := by omega
          rw [Nat.max_eq_right hle] at ihr
          have := Nat.le_max_right s.length (ml + 1 + M)
          omega
      · have hc' : summaryCond f = false := by
          cases hcc : summaryCond f with
          | false => rfl
          | true => exact absurd hcc hc
        simp only [summary_rest, hc', Bool.false_eq_true, if_false]
        exact ih s c fun g hg hgc => h g (List.mem_cons_of_mem _ hg) hgc

theorem summary_rest_fst_shape (fe : GField → String) (ml : Nat) :
    ∀ (fs : List GField) (s : String) (c : Nat),
      ∃ t, (summary_rest fe ml fs s c).1 = s ++ t ∧
        (t = joinEntries fe (fs.filter summaryCond) ∨ ∃ t', t = t' ++ ", ...") := by
  intro fs
  induction fs with
  | nil =>
      intro s c
      refine ⟨"", ?_, Or.inl rfl⟩
      simp [summary_rest, String.append_empty]
  | cons f fs ih =>
      intro s c
      by_cases hc : summaryCond f = true
      · by_cases hl : ml ≤ s.length
        · refine ⟨", ...", ?_, Or.inr ⟨"", by simp⟩⟩
          simp [summary_rest, hc, if_pos hl]
        · obtain ⟨t, ht, hdisj⟩ := ih (s ++ ", " ++ fe f) (c + 1)
          refine ⟨", " ++ fe f ++ t, ?_, ?_⟩
          · simp only [summary_rest, hc, if_true, if_neg hl]
            rw [ht]
            simp [String.append_assoc]
          · rcases hdisj with h | ⟨t', ht'⟩
            · left
              rw [h, List.filter_cons_of_pos hc]
              simp [joinEntries, String.append_assoc]
            · right
              exact ⟨", " ++ fe f ++ t', by rw [ht']; simp [String.append_assoc]⟩
      · have hc' : summaryCond f = false := by
          cases hcc : summaryCond f with
          | false => rfl
          | true => exact absurd hcc hc
        obtain ⟨t, ht, hdisj⟩ := ih s c
        refine ⟨t, ?_, ?_⟩
        · simpa [summary_rest, hc', Bool.false_eq_true] using ht
        · rcases hdisj with h | h
          · left; rw [h, List.filter_cons_of_neg (by simp [hc'])]
          · right; exact h

theorem summary_rest_snd_ge (fe : GField → String) (ml : Nat) :
    ∀ (fs : List GField) (s : String) (c : Nat),
      c ≤ (summary_rest fe ml fs s c).2 := by
  intro fs
  induction fs with
  | nil => intro s c; exact Nat.le_refl c
  | cons f fs ih =>
      intro s c
      by_cases hc : summaryCond f = true
      · by_cases hl : ml ≤ s.length
        · simp [summary_rest, hc, if_pos hl]
        · simp only [summary_rest, hc, if_true, if_neg hl]
          exact Nat.le_trans (Nat.le_succ c) (ih _ _)
      · have hc' : summaryCond f = false := by
          cases hcc : summaryCond f with
          | false => rfl
          | true => exact absurd hcc hc
        simp only [summary_rest, hc', Bool.false_eq_true, if_false]
        exact ih s c

/-- C6 (counterexample): the claim states that when zero instance fields are
emitted the summary function returns the literal empty-braces string; with
`show_type` enabled (the factory's default) the result is prefixed by the
type name, e.g. `"mystruct {}"` for a fieldless type. -/
theorem c6_type_prefix_counterexample :
    summary_fn c6Entry true [] "mystruct" 100 = "mystruct \x7b\x7d" ∧
    (("mystruct \x7b\x7d" : String) == "\x7b\x7d") = false :=
  ⟨rfl, rfl⟩

/-- C6 (amended): for every per-field renderer, field list and `max_length`,
the summary body is `"{}"` when no instance field exists, `"{...}"` when the
first instance field is found but the two-character opening already reaches
`max_length`, and otherwise a brace-delimited list that either contains every
instance field's entry or ends with the `", ..."` truncation marker; the
whole result (the body prefixed by the type name when `show_type` is set)
never exceeds `max_length` by more than one field's rendered entry plus a
constant for the delimiters -- in particular the output length is bounded
regardless of how many fields the type declares. -/
theorem c6_summary_truncation (fe : GField → String) (show_type : Bool)
    (fields : List GField) (type_str : String) (ml : Nat) :
    (fields.findIdx? summaryCond = none →
      summary_fn fe show_type fields type_str ml =
        (if show_type then type_str ++ " " else "") ++ "\x7b\x7d") ∧
    (∀ j, fields.findIdx? summaryCond = some j → ml ≤ 2 →
      summary_fn fe show_type fields type_str ml =
        (if show_type then type_str ++ " " else "") ++ "\x7b...\x7d") ∧
    (∀ j, fields.findIdx? summaryCond = some j → 2 < ml →
      ∃ core,
        summary_fn fe show_type fields type_str ml =
          (if show_type then type_str ++ " " else "") ++ ("\x7b " ++ core ++ " \x7d") ∧
        (core = fe (fields.getD j default) ++
            joinEntries fe ((fields.drop (j + 1)).filter summaryCond) ∨
          ∃ s', core = s' ++ ", ...")) ∧
    (summary_fn fe show_type fields type_str ml).length ≤
      (if show_type then type_str ++ " " else "").length + ml +
        maxEntryLen fe fields + 8 := by
  have h2 : ("\x7b " : String).length = 2 := rfl
  have hsplit : ∀ b : String,
      (if show_type then type_str ++ " " ++ b else b) =
        (if show_type then type_str ++ " " else "") ++ b := by
    intro b
    cases show_type <;> simp [String.append_assoc]
  have hnone : fields.findIdx? summaryCond = none →
      summary_fn fe show_type fields type_str ml =
        (if show_type then type_str ++ " " else "") ++ "\x7b\x7d" := by
    intro h
    simp only [summary_fn, h]
    exact hsplit "\x7b\x7d"
  have hsmall : ∀ j, fields.findIdx? summaryCond = some j → ml ≤ 2 →
      summary_fn fe show_type fields type_str ml =
        (if show_type then type_str ++ " " else "") ++ "\x7b...\x7d" := by
    intro j hj hml
    have hle : ml ≤ ("\x7b " : String).length := by omega
    simp only [summary_fn, hj, if_pos hle]
    exact hsplit "\x7b...\x7d"
  have hbig : ∀ j, fields.findIdx? summaryCond = some j → 2 < ml →
      ∃ core,
        summary_fn fe show_type fields type_str ml =
          (if show_type then type_str ++ " " else "") ++ ("\x7b " ++ core ++ " \x7d") ∧
        (core = fe (fields.getD j default) ++
            joinEntries fe ((fields.drop (j + 1)).filter summaryCond) ∨
          ∃ s', core = s' ++ ", ...") := by
    intro j hj hml
    have hgt : ¬ml ≤ ("\x7b " : String).length := by omega
    obtain ⟨t, ht, hdisj⟩ := summary_rest_fst_shape fe ml (fields.drop (j + 1))
      ("\x7b " ++ fe (fields.getD j default)) 1
    have hc1 : (summary_rest fe ml (fields.drop (j + 1))
        ("\x7b " ++ fe (fields.getD j default)) 1).2 ≠ 0 := by
      have := summary_rest_snd_ge fe ml (fields.drop (j + 1))
        ("\x7b " ++ fe (fields.getD j default)) 1
      omega
    refine ⟨fe (fields.getD j default) ++ t, ?_, ?_⟩
    · simp only [summary_fn, hj, if_neg hgt, hc1, ne_eq, not_false_eq_true, if_true,
        ite_true]
      rw [ht]
      rw [hsplit]
      simp [String.append_assoc]
    · rcases hdisj with h | ⟨t', ht'⟩
      · left; rw [h]
      · right
        exact ⟨fe (fields.getD j default) ++ t', by
          rw [ht']; simp [String.append_assoc]⟩
  refine ⟨hnone, hsmall, hbig, ?_⟩
  have hplen : ∀ b : String,
      ((if show_type then type_str ++ " " else "") ++ b).length =
        (if show_type then type_str ++ " " else "").length + b.length := by
    intro b; rw [String.length_append]
  match hj : fields.findIdx? summaryCond with
  | none =>
      rw [hnone hj, hplen]
      have : ("\x7b\x7d" : String).length = 2 := rfl
      omega
  | some j =>
      by_cases hml : ml ≤ 2
      · rw [hsmall j hj hml, hplen]
        have : ("\x7b...\x7d" : String).length = 5 := rfl
        omega
      · have hgt : ¬ml ≤ ("\x7b " : String).length := by omega
        obtain ⟨hij, hjlen, hcond, hmem⟩ := findIdx?_spec summaryCond fields 0 j hj
        simp only [Nat.sub_zero] at hjlen hcond hmem
        have hc1 : (summary_rest fe ml (fields.drop (j + 1))
            ("\x7b " ++ fe (fields.getD j default)) 1).2 ≠ 0 := by
          have := summary_rest_snd_ge fe ml (fields.drop (j + 1))
            ("\x7b " ++ fe (fields.getD j default)) 1
          omega
        simp only [summary_fn, hj, if_neg hgt, hc1, ne_eq, not_false_eq_true,
          if_true, ite_true]
        have hM0 : (fe (fields.getD j default)).length ≤ maxEntryLen fe fields :=
          maxEntryLen_le fe fields _ hmem hcond
        have hrest := summary_rest_fst_len fe ml (maxEntryLen fe fields)
          (fields.drop (j + 1)) ("\x7b " ++ fe (fields.getD j default)) 1
          (fun g hg hgc =>
            maxEntryLen_le fe fields g (List.mem_of_mem_drop hg) hgc)
        have hslen : ("\x7b " ++ fe (fields.getD j default)).length =
            2 + (fe (fields.getD j default)).length := by
          rw [String.length_append]; omega
        have hmax : max ("\x7b " ++ fe (fields.getD j default)).length
            (ml + 1 + maxEntryLen fe fields) = ml + 1 + maxEntryLen fe fields := by
          apply Nat.max_eq_right
          omega
        rw [hmax] at hrest
        have hclose : (" \x7d" : String).length = 2 := rfl
        rw [hsplit, hplen, String.length_append]
        omega

/-- C6 (witness): the amended statement at concrete inputs -- a fieldless
type with `show_type` yields `"mystruct {}"`; a three-field type with
`max_length = 7` truncates; the output length bound holds there. -/
theorem c6_summary_truncation_witness :
    (summary_fn c6Entry true [] "mystruct" 100 =
      (if true then "mystruct" ++ " " else "") ++ "\x7b\x7d") ∧
    (summary_fn c6Entry false c6Fields "T" 1 =
      (if false then "T" ++ " " else "") ++ "\x7b...\x7d") ∧
    (summary_fn c6Entry false c6Fields "T" 7).length ≤
      (if false then "T" ++ " " else "").length + 7 +
        maxEntryLen c6Entry c6Fields + 8 :=
  ⟨(c6_summary_truncation c6Entry true [] "mystruct" 100).1 rfl,
    (c6_summary_truncation c6Entry false c6Fields "T" 1).2.1 0 rfl (by omega),
    (c6_summary_truncation c6Entry false c6Fields "T" 7).2.2.2⟩

/-- C4 (counterexample): the claim promises one synthetic entry per declared
view *other than the default*; the code filters by view *name*, so with two
declared views both named `"A"` and `default_view = "A"` the second declared
view -- a view other than the default -- gets no entry: the rendered labels
are `["x", "<Static>", "<Raw>"]` while the claim's construction yields
`["x", "<Static>", "<Raw>", "<A>"]`. -/
theorem c4_duplicate_view_name_counterexample :
    (defaultPrinter_children (fun _ => none) colorVal (some dupPrinter)).map
        (List.map Prod.fst) =
      .ok ["x", "<Static>", "<Raw>"] ∧
    (claimedTopChildren colorVal [dupView, dupView] 0).map (List.map Prod.fst) =
      .ok ["x", "<Static>", "<Raw>", "<A>"] ∧
    ((["x", "<Static>", "<Raw>"] : List String) ==
      ["x", "<Static>", "<Raw>", "<A>"]) = false :=
  ⟨rfl, rfl, rfl⟩

/-- C4 (amended): for every registered printer spec with at least one view
and a declared `default_view` that resolves to a view, the top-level child
sequence is: first the default view's children, then a `"<Static>"` entry iff
the type has fields without storage, then a `"<Raw>"` entry, then one
`"<name>"` entry per declared view whose *name* differs from the
`default_view` name, in declaration order -- this relative order is fixed. -/
theorem c4_top_level_children_order (lookup : String → Option GType)
    (val : GValue) (p : Printer) (vs : List View) (dn : String) (dv : View)
    (hviews : p.views = some vs) (hne : vs ≠ [])
    (hdn : p.default_view = some dn)
    (hdv : vs.find? (fun v => v.name = dn) = some dv) :
    defaultPrinter_children lookup val (some p) =
      (viewPrinter_children val dv).map fun top =>
        top
          ++ (if has_static val then
                [("<Static>", ChildVal.gval (make_enums_tag val _STATIC_ENUM))]
              else [])
          ++ [("<Raw>", ChildVal.gval (make_enums_tag val _RAW_ENUM))]
          ++ (List.range vs.length).filterMap fun i =>
              if (vs.getD i default).name ≠ dn then
                some ("<" ++ (vs.getD i default).name ++ ">",
                  ChildVal.gval (make_enums_tag val (_VIEW_ENUM i)))
              else none := by
  have hcount : count_views (some p) = vs.length := by
    simp [count_views, hviews]
  have hlen : vs.length ≠ 0 := by
    intro h
    exact hne (List.length_eq_zero.mp h)
  have hget : get_view_named (some p) dn = some dv := by
    simp [get_view_named, hviews, hdv]
  have hpt : ∀ i ∈ List.range vs.length,
      (if neOptStr (view_name (some p) i) (some dn) then
        some ("<" ++ view_name (some p) i ++ ">",
          ChildVal.gval (make_enums_tag val (_VIEW_ENUM i)))
      else none) =
      (if (vs.getD i default).name ≠ dn then
        some ("<" ++ (vs.getD i default).name ++ ">",
          ChildVal.gval (make_enums_tag val (_VIEW_ENUM i)))
      else none) := by
    intro i hi
    have hilt : i < vs.length := List.mem_range.mp hi
    have hname : view_name (some p) i = (vs.getD i default).name := by
      simp only [view_name, hviews]
      rw [List.getElem?_eq_getElem hilt]
      rw [List.getD_eq_getElem?_getD, List.getElem?_eq_getElem hilt]
      simp
    rw [hname]
    simp only [neOptStr, decide_eq_true_eq]
  simp only [defaultPrinter_children, hcount, hdn, hget]
  rw [if_neg (show ¬(vs.length = 0 ∨ (some dn : Option String) = none) by
    simp [hlen])]
  rw [if_pos (show vs.length > 0 from Nat.pos_of_ne_zero hlen)]
  rw [if_pos (show (some dn : Option String) ≠ none by simp)]
  rw [List.filterMap_congr hpt]
  refine congrArg₂ Except.map ?_ rfl
  funext top
  simp [List.append_assoc]

/-- C4 (witness): Scenario A -- a spec for `"Color"` with views
`Components` / `Alpha` / `Statistics` and `default_view = "Alpha"` renders
the `Alpha` view's children, then `"<Static>"` (the `Color` fixture has a
field without storage), `"<Raw>"`, `"<Components>"`, `"<Statistics>"`, in
that order. -/
theorem c4_top_level_children_order_witness :
    defaultPrinter_children (fun _ => none) colorVal (some colorPrinter) =
      .ok [("raw", ChildVal.gval colorVal), ("normalized", ChildVal.pystr "0.5"),
        ("<Static>", ChildVal.gval (make_enums_tag colorVal _STATIC_ENUM)),
        ("<Raw>", ChildVal.gval (make_enums_tag colorVal _RAW_ENUM)),
        ("<Components>", ChildVal.gval (make_enums_tag colorVal (_VIEW_ENUM 0))),
        ("<Statistics>", ChildVal.gval (make_enums_tag colorVal (_VIEW_ENUM 2)))] :=
  c4_top_level_children_order (fun _ => none) colorVal colorPrinter
    [componentsView, alphaView, statisticsView] "Alpha" alphaView
    rfl (List.cons_ne_nil _ _) rfl rfl

/-! ### Decimal printing lemmas -/

theorem char_digit_toNat : ∀ d, d < 10 → (Char.ofNat (48 + d)).toNat = 48 + d := by
  intro d hd
  interval_cases d <;> rfl

theorem decimalDigitsAux_digit :
    ∀ f n c, c ∈ decimalDigitsAux f n → isAsciiDigit c = true := by
  intro f
  induction f with
  | zero => intro n c hc; exact absurd hc (by simp [decimalDigitsAux])
  | succ f ih =>
      intro n c hc
      match n with
      | 0 => exact absurd hc (by simp [decimalDigitsAux])
      | m + 1 =>
          rw [decimalDigitsAux] at hc
          rcases List.mem_cons.mp hc with h | h
          · have hlt : (m + 1) % 10 < 10 := Nat.mod_lt _ (by omega)
            have htn := char_digit_toNat ((m + 1) % 10) hlt
            rw [h]
            simp only [isAsciiDigit, htn, Bool.and_eq_true, decide_eq_true_eq]
            omega
          · exact ih _ c h

theorem decimal_digit (n : Nat) : ∀ c ∈ (decimal n).data, isAsciiDigit c = true := by
  intro c hc
  by_cases h : n = 0
  · rw [h] at hc
    have : c = '0' := by
      rcases List.mem_cons.mp hc with h' | h'
      · exact h'
      · exact absurd h' (List.not_mem_nil c)
    rw [this]
    rfl
  · rw [decimal, if_neg h] at hc
    exact decimalDigitsAux_digit n n c (List.mem_reverse.mp hc)

theorem decimalDigitsAux_ne_nil (f n : Nat) (h0 : 0 < n) (hf : n ≤ f) :
    decimalDigitsAux f n ≠ [] := by
  match f, n with
  | 0, n => omega
  | f + 1, 0 => omega
  | f + 1, m + 1 =>
      rw [decimalDigitsAux]
      exact List.cons_ne_nil _ _

theorem decimal_ne_nil (n : Nat) : (decimal n).data ≠ [] := by
  by_cases h : n = 0
  · rw [h]; exact List.cons_ne_nil _ _
  · rw [decimal, if_neg h]
    intro hc
    exact decimalDigitsAux_ne_nil n n (Nat.pos_of_ne_zero h) (Nat.le_refl n)
      (by simpa using hc)

theorem pyInt_digitsAux : ∀ f n, n ≤ f →
    pyIntOfDigits ((decimalDigitsAux f n).reverse) = n := by
  intro f
  induction f with
  | zero =>
      intro n h
      interval_cases n
      rfl
  | succ f ih =>
      intro n h
      match n with
      | 0 => rfl
      | m + 1 =>
          rw [decimalDigitsAux, List.reverse_cons]
          rw [pyIntOfDigits, List.foldl_append]
          have hdle : (m + 1) / 10 ≤ f := by
            have := Nat.div_lt_self (Nat.succ_pos m) (by omega : 1 < 10)
            omega
          have ihv := ih ((m + 1) / 10) hdle
          rw [pyIntOfDigits] at ihv
          rw [ihv]
          simp only [List.foldl_cons, List.foldl_nil]
          rw [char_digit_toNat _ (Nat.mod_lt _ (by omega))]
          omega

theorem pyIntOfDigits_decimal (n : Nat) : pyIntOfDigits (decimal n).data = n := by
  by_cases h : n = 0
  · rw [h]; rfl
  · rw [decimal, if_neg h]
    exact pyInt_digitsAux n n (Nat.le_refl n)

/-! ### Matcher lemmas -/

theorem span_loop_all_then_stop (p : Char → Bool) :
    ∀ (ds : List Char) (acc : List Char) (x : Char) (rest : List Char),
      (∀ c ∈ ds, p c = true) → p x = false →
      List.span.loop p (ds ++ x :: rest) acc = (acc.reverse ++ ds, x :: rest) := by
  intro ds
  induction ds with
  | nil =>
      intro acc x rest _ hx
      simp only [List.nil_append, List.span.loop, hx]
      simp
  | cons d ds ih =>
      intro acc x rest hall hx
      have hd : p d = true := hall d (List.mem_cons_self _ _)
      simp only [List.cons_append, List.span.loop, hd]
      simpa [List.append_assoc] using
        ih (d :: acc) x rest (fun c hc => hall c (List.mem_cons_of_mem _ hc)) hx

theorem span_all_then_stop (p : Char → Bool) (ds : List Char) (x : Char)
    (rest : List Char) (hall : ∀ c ∈ ds, p c = true) (hx : p x = false) :
    List.span p (ds ++ x :: rest) = (ds, x :: rest) := by
  rw [List.span, span_loop_all_then_stop p ds [] x rest hall hx]
  simp

theorem matchTagUnit_spec (ds : List Char) (rest : List Char)
    (hne : ds ≠ []) (hall : ∀ c ∈ ds, isAsciiDigit c = true) :
    matchTagUnit ('[' :: (ds ++ ']' :: rest)) = some (ds, rest) := by
  rw [matchTagUnit]
  rw [if_pos rfl]
  have hsp := span_all_then_stop isAsciiDigit ds ']' rest hall (by rfl)
  simp only [hsp]
  rw [if_neg (by simpa using hne)]
  simp

theorem matchTagUnit_none_of_head (c : Char) (rest : List Char) (hc : c ≠ '[') :
    matchTagUnit (c :: rest) = none := by
  rw [matchTagUnit, if_neg hc]

theorem matchTagsPlusAux_none_of_unit_none (s : List Char)
    (h : matchTagUnit s = none) : ∀ f, matchTagsPlusAux f s = none := by
  intro f
  match f with
  | 0 => rfl
  | f + 1 => rw [matchTagsPlusAux, h]

theorem bracketJoin_cons (d : List Char) (ds : List (List Char)) :
    bracketJoin (d :: ds) = '[' :: (d ++ ']' :: bracketJoin ds) := rfl

theorem bracketJoin_length (d : List Char) (ds : List (List Char)) :
    (bracketJoin (d :: ds)).length = d.length + 2 + (bracketJoin ds).length := by
  rw [bracketJoin_cons]
  simp
  omega

theorem matchTagsPlusAux_spec :
    ∀ (ds : List (List Char)) (f : Nat) (tail : List Char), ds ≠ [] →
      (∀ d ∈ ds, d ≠ [] ∧ ∀ c ∈ d, isAsciiDigit c = true) →
      matchTagUnit tail = none → (bracketJoin ds).length ≤ f →
      matchTagsPlusAux f (bracketJoin ds ++ tail) = some (ds, tail) := by
  intro ds
  induction ds with
  | nil => intro f tail h; exact absurd rfl h
  | cons d ds ih =>
      intro f tail _ hall htail hf
      obtain ⟨hdne, hdig⟩ := hall d (List.mem_cons_self _ _)
      have hlen := bracketJoin_length d ds
      match f with
      | 0 => rw [hlen] at hf; omega
      | f + 1 =>
          rw [matchTagsPlusAux]
          have hjoin : bracketJoin (d :: ds) ++ tail =
              '[' :: (d ++ ']' :: (bracketJoin ds ++ tail)) := by
            rw [bracketJoin_cons]
            simp [List.append_assoc]
          rw [hjoin, matchTagUnit_spec d (bracketJoin ds ++ tail) hdne hdig]
          cases ds with
          | nil =>
              show (match matchTagsPlusAux f (bracketJoin [] ++ tail) with
                  | some (ds, rest') => some (d :: ds, rest')
                  | none => some ([d], bracketJoin [] ++ tail)) =
                some ([d], tail)
              have hbj : bracketJoin ([] : List (List Char)) ++ tail = tail := rfl
              rw [hbj, matchTagsPlusAux_none_of_unit_none tail htail f]
          | cons d' ds' =>
              show (match matchTagsPlusAux f (bracketJoin (d' :: ds') ++ tail) with
                  | some (ds, rest') => some (d :: ds, rest')
                  | none => some ([d], bracketJoin (d' :: ds') ++ tail)) =
                some (d :: d' :: ds', tail)
              rw [ih f tail (List.cons_ne_nil _ _)
                (fun g hg => hall g (List.mem_cons_of_mem _ hg)) htail
                (by rw [hlen] at hf; omega)]

theorem matchTagsPlus_spec (ds : List (List Char)) (tail : List Char)
    (hne : ds ≠ []) (hall : ∀ d ∈ ds, d ≠ [] ∧ ∀ c ∈ d, isAsciiDigit c = true)
    (htail : matchTagUnit tail = none) :
    matchTagsPlus (bracketJoin ds ++ tail) = some (ds, tail) := by
  rw [matchTagsPlus]
  exact matchTagsPlusAux_spec ds _ tail hne hall htail (by simp; omega)

theorem dropLit_lit_append : ∀ (lit x : List Char), dropLit lit (lit ++ x) = some x := by
  intro lit
  induction lit with
  | nil => intro x; rfl
  | cons c cs ih =>
      intro x
      simp only [List.cons_append, dropLit, if_pos rfl]
      exact ih x

theorem dropLit_none_extend : ∀ (lit xs ys : List Char),
    dropLit lit xs = none → (∀ c ∈ ys, c ∉ lit) → dropLit lit (xs ++ ys) = none := by
  intro lit
  induction lit with
  | nil => intro xs ys h _; exact absurd h (by simp [dropLit])
  | cons c cs ih =>
      intro xs ys h hys
      cases xs with
      | nil =>
          cases ys with
          | nil => rfl
          | cons y ys' =>
              have hy : y ∉ c :: cs := hys y (List.mem_cons_self _ _)
              have hne : ¬(y = c) := fun heq => hy (heq ▸ List.mem_cons_self _ _)
              simp only [List.nil_append, dropLit, if_neg hne]
      | cons x xs' =>
          rw [dropLit] at h
          by_cases hx : x = c
          · rw [if_pos hx] at h
            simp only [List.cons_append, dropLit, if_pos hx]
            exact ih xs' ys h
              (fun d hd hdc => hys d hd (List.mem_cons_of_mem _ hdc))
          · simp only [List.cons_append, dropLit, if_neg hx]

theorem matchAfterType_none_of_head (c : Char) (rest : List Char)
    (hstar : c ≠ '*') (hparen : c ≠ '(') :
    matchAfterType (c :: rest) = none := by
  simp [matchAfterType, dropLit, quadPtrLit, hstar, hparen]

theorem matchAfterType_none_two_stars (rest : List Char) :
    matchAfterType ('*' :: '*' :: rest) = none := by
  simp [matchAfterType, dropLit, quadPtrLit]

theorem matchAfterType_quad (ds : List (List Char)) (hne : ds ≠ [])
    (hall : ∀ d ∈ ds, d ≠ [] ∧ ∀ c ∈ d, isAsciiDigit c = true) :
    matchAfterType (quadPtrLit ++ bracketJoin ds) = some (false, ds, []) := by
  have hmt : matchTagsPlus (bracketJoin ds) = some (ds, []) := by
    have h := matchTagsPlus_spec ds [] hne hall rfl
    simpa using h
  simp [matchAfterType, dropLit, quadPtrLit, hmt]

theorem lazyTypeAux_skip (c : Char) (acc rest : List Char)
    (hm : matchAfterType (c :: rest) = none) (hc : c ≠ '\n') :
    lazyTypeAux acc (c :: rest) = lazyTypeAux (c :: acc) rest := by
  rw [lazyTypeAux, hm]
  simp [hc]

theorem lazyTypeAux_skip_clean :
    ∀ (pre : List Char) (acc rest : List Char),
      (∀ c ∈ pre, c ≠ '*' ∧ c ≠ '(' ∧ c ≠ '\n') →
      lazyTypeAux acc (pre ++ rest) = lazyTypeAux (pre.reverse ++ acc) rest := by
  intro pre
  induction pre with
  | nil => intro acc rest _; simp
  | cons c pre' ih =>
      intro acc rest hclean
      obtain ⟨h1, h2, h3⟩ := hclean c (List.mem_cons_self _ _)
      rw [List.cons_append,
        lazyTypeAux_skip c acc (pre' ++ rest)
          (matchAfterType_none_of_head c _ h1 h2) h3,
        ih (c :: acc) rest (fun d hd => hclean d (List.mem_cons_of_mem _ hd))]
      simp [List.append_assoc]

theorem matchAfterType_star_before_quad (m : Nat) (tail : List Char) :
    matchAfterType ('*' :: (List.replicate m '*' ++ (quadPtrLit ++ tail))) = none := by
  cases m with
  | zero =>
      show matchAfterType
        ('*' :: '*' :: '(' :: '*' :: '*' :: '*' :: '*' :: ')' :: tail) = none
      exact matchAfterType_none_two_stars _
  | succ k =>
      show matchAfterType
        ('*' :: '*' :: (List.replicate k '*' ++ (quadPtrLit ++ tail))) = none
      exact matchAfterType_none_two_stars _

theorem lazyTypeAux_skip_stars :
    ∀ (m : Nat) (acc tail : List Char),
      lazyTypeAux acc (List.replicate m '*' ++ (quadPtrLit ++ tail)) =
        lazyTypeAux (List.replicate m '*' ++ acc) (quadPtrLit ++ tail) := by
  intro m
  induction m with
  | zero => intro acc tail; simp
  | succ k ih =>
      intro acc tail
      have hstep : List.replicate (k + 1) '*' ++ (quadPtrLit ++ tail) =
          '*' :: (List.replicate k '*' ++ (quadPtrLit ++ tail)) := by
        simp [List.replicate_succ]
      rw [hstep,
        lazyTypeAux_skip '*' acc _ (matchAfterType_star_before_quad k tail)
          (by decide),
        ih ('*' :: acc) tail]
      have hacc : List.replicate k '*' ++ ('*' :: acc) =
          List.replicate (k + 1) '*' ++ acc := by
        rw [List.replicate_succ']
        simp [List.append_assoc]
      rw [hacc]

theorem lazyTypeAux_at_quad (acc : List Char) (ds : List (List Char))
    (hne : ds ≠ [])
    (hall : ∀ d ∈ ds, d ≠ [] ∧ ∀ c ∈ d, isAsciiDigit c = true) :
    lazyTypeAux acc (quadPtrLit ++ bracketJoin ds) =
      some (acc.reverse, false, ds, []) := by
  have hshape : quadPtrLit ++ bracketJoin ds =
      '*' :: ('(' :: '*' :: '*' :: '*' :: '*' :: ')' :: bracketJoin ds) := rfl
  rw [hshape, lazyTypeAux, ← hshape, matchAfterType_quad ds hne hall]
  rfl

theorem mem_bracketJoin_class :
    ∀ (ds : List (List Char)),
      (∀ d ∈ ds, ∀ c ∈ d, isAsciiDigit c = true) →
      ∀ c ∈ bracketJoin ds, c = '[' ∨ c = ']' ∨ isAsciiDigit c = true := by
  intro ds
  induction ds with
  | nil => intro _ c hc; exact absurd hc (List.not_mem_nil c)
  | cons d ds ih =>
      intro hall c hc
      rw [bracketJoin_cons] at hc
      rcases List.mem_cons.mp hc with h | h
      · exact Or.inl h
      · rcases List.mem_append.mp h with h' | h'
        · exact Or.inr (Or.inr (hall d (List.mem_cons_self _ _) c h'))
        · rcases List.mem_cons.mp h' with h'' | h''
          · exact Or.inr (Or.inl h'')
          · exact ih (fun g hg => hall g (List.mem_cons_of_mem _ hg)) c h''

theorem tail_not_mem_qualifier (m : Nat) (ds : List (List Char))
    (hall : ∀ d ∈ ds, ∀ c ∈ d, isAsciiDigit c = true) :
    ∀ c ∈ List.replicate m '*' ++ (quadPtrLit ++ bracketJoin ds),
      c ∉ "const ".data ∧ c ∉ "volatile ".data := by
  intro c hc
  have hclass : c = '*' ∨ c = '(' ∨ c = ')' ∨ c = '[' ∨ c = ']' ∨
      isAsciiDigit c = true := by
    rcases List.mem_append.mp hc with h | h
    · exact Or.inl (List.eq_of_mem_replicate h)
    · rcases List.mem_append.mp h with h' | h'
      · have hq : c ∈ ['*', '(', '*', '*', '*', '*', ')'] := h'
        simp at hq
        tauto
      · rcases mem_bracketJoin_class ds hall c h' with h'' | h'' | h'' <;> tauto
  have hdig : ∀ c : Char, isAsciiDigit c = true →
      c ∉ "const ".data ∧ c ∉ "volatile ".data := by
    intro x hx
    constructor
    · intro hmem
      have hmem' : x ∈ ['c', 'o', 'n', 's', 't', ' '] := hmem
      fin_cases hmem' <;> exact absurd hx (by decide)
    · intro hmem
      have hmem' : x ∈ ['v', 'o', 'l', 'a', 't', 'i', 'l', 'e', ' '] := hmem
      fin_cases hmem' <;> exact absurd hx (by decide)
  rcases hclass with h | h | h | h | h | h
  · subst h; exact ⟨by decide, by decide⟩
  · subst h; exact ⟨by decide, by decide⟩
  · subst h; exact ⟨by decide, by decide⟩
  · subst h; exact ⟨by decide, by decide⟩
  · subst h; exact ⟨by decide, by decide⟩
  · exact hdig c h

theorem tryTypeFrom_spec (cf vf : Bool) (nameData : List Char)
    (hnn : nameData ≠ [])
    (hclean : ∀ c ∈ nameData, c ≠ '*' ∧ c ≠ '(' ∧ c ≠ '\n')
    (m : Nat) (ds : List (List Char)) (hne : ds ≠ [])
    (hall : ∀ d ∈ ds, d ≠ [] ∧ ∀ c ∈ d, isAsciiDigit c = true) :
    tryTypeFrom cf vf
        (nameData ++
          (' ' :: (List.replicate m '*' ++ (quadPtrLit ++ bracketJoin ds)))) =
      some ⟨cf, vf, ⟨nameData ++ ' ' :: List.replicate m '*'⟩, false, ds, ""⟩ := by
  match nameData, hnn with
  | c :: rest, _ =>
      have hc := hclean c (List.mem_cons_self _ _)
      rw [List.cons_append, tryTypeFrom, if_neg hc.2.2]
      have hre : rest ++
          (' ' :: (List.replicate m '*' ++ (quadPtrLit ++ bracketJoin ds))) =
          (rest ++ [' ']) ++
            (List.replicate m '*' ++ (quadPtrLit ++ bracketJoin ds)) := by
        simp [List.append_assoc]
      rw [hre,
        lazyTypeAux_skip_clean (rest ++ [' ']) [c] _
          (by
            intro d hd
            rcases List.mem_append.mp hd with h | h
            · exact hclean d (List.mem_cons_of_mem _ h)
            · have hsp : d = ' ' := by simpa using h
              subst hsp
              exact ⟨by decide, by decide, by decide⟩),
        lazyTypeAux_skip_stars m, lazyTypeAux_at_quad _ ds hne hall]
      rw [Option.map_some']
      have hrev : (List.replicate m '*' ++ ((rest ++ [' ']).reverse ++ [c])).reverse =
          (c :: rest) ++ ' ' :: List.replicate m '*' := by
        simp [List.reverse_append, List.append_assoc]
      rw [hrev]

theorem synthTagTypeSearch_spec (cf vf : Bool) (name : String) (s : String)
    (hwf : wfTagBaseName name = true) (m : Nat) (ds : List (List Char))
    (hne : ds ≠ []) (hall : ∀ d ∈ ds, d ≠ [] ∧ ∀ c ∈ d, isAsciiDigit c = true)
    (hs : s.data =
      (if cf then "const ".data else []) ++
        ((if vf then "volatile ".data else []) ++
          (name.data ++
            (' ' :: (List.replicate m '*' ++ (quadPtrLit ++ bracketJoin ds)))))) :
    synthTagTypeSearch s =
      some ⟨cf, vf, ⟨name.data ++ ' ' :: List.replicate m '*'⟩, false, ds, ""⟩ := by
  have hwf' := hwf
  rw [wfTagBaseName] at hwf'
  simp only [Bool.and_eq_true] at hwf'
  obtain ⟨⟨⟨hne', hcleanB⟩, hconstB⟩, hvolB⟩ := hwf'
  have hnn : name.data ≠ [] := by
    intro h
    rw [h] at hne'
    exact absurd hne' (by decide)
  have hclean : ∀ c ∈ name.data, c ≠ '*' ∧ c ≠ '(' ∧ c ≠ '\n' := by
    intro c hc
    have h := List.all_eq_true.mp hcleanB c hc
    simp only [Bool.not_eq_true', Bool.or_eq_false_iff] at h
    obtain ⟨⟨h1, h2⟩, h3⟩ := h
    exact ⟨by simpa using h1, by simpa using h2, by simpa using h3⟩
  have hconst : dropLit "const ".data (name.data ++ [' ']) = none :=
    Option.isNone_iff_eq_none.mp hconstB
  have hvol : dropLit "volatile ".data (name.data ++ [' ']) = none :=
    Option.isNone_iff_eq_none.mp hvolB
  have htail := tail_not_mem_qualifier m ds (fun d hd => (hall d hd).2)
  have hext : ∀ lit : List Char,
      dropLit lit (name.data ++ [' ']) = none →
      (∀ c ∈ List.replicate m '*' ++ (quadPtrLit ++ bracketJoin ds), c ∉ lit) →
      dropLit lit
        (name.data ++
          (' ' :: (List.replicate m '*' ++ (quadPtrLit ++ bracketJoin ds)))) =
        none := by
    intro lit h1 h2
    have hsh : name.data ++
        (' ' :: (List.replicate m '*' ++ (quadPtrLit ++ bracketJoin ds))) =
        (name.data ++ [' ']) ++
          (List.replicate m '*' ++ (quadPtrLit ++ bracketJoin ds)) := by
      simp [List.append_assoc]
    rw [hsh]
    exact dropLit_none_extend lit _ _ h1 h2
  have htt := tryTypeFrom_spec cf vf name.data hnn hclean m ds hne hall
  cases cf with
  | false =>
      cases vf with
      | false =>
          rw [if_neg (by decide : ¬(false = true)),
            if_neg (by decide : ¬(false = true)), List.nil_append,
            List.nil_append] at hs
          rw [synthTagTypeSearch, hs]
          rw [hext "const ".data hconst (fun c hc => (htail c hc).1)]
          rw [hext "volatile ".data hvol (fun c hc => (htail c hc).2)]
          simpa using htt
      | true =>
          rw [if_neg (by decide : ¬(false = true)), if_pos rfl,
            List.nil_append] at hs
          rw [synthTagTypeSearch, hs]
          have hcv : dropLit "const ".data
              ("volatile ".data ++
                (name.data ++
                  (' ' ::
                    (List.replicate m '*' ++ (quadPtrLit ++ bracketJoin ds))))) =
              none := by
            rfl
          simp only [hcv, dropLit_lit_append]
          rw [htt]
  | true =>
      cases vf with
      | false =>
          rw [if_pos rfl, if_neg (by decide : ¬(false = true)),
            List.nil_append] at hs
          rw [synthTagTypeSearch, hs]
          simp only [dropLit_lit_append]
          rw [hext "volatile ".data hvol (fun c hc => (htail c hc).2)]
          rw [htt]
      | true =>
          rw [if_pos rfl, if_pos rfl] at hs
          rw [synthTagTypeSearch, hs]
          simp only [dropLit_lit_append]
          rw [htt]

theorem fmtType_ptr_eq (t : GType) (d : String) :
    fmtType (.ptr t) d = fmtType t ("*" ++ d) := rfl

theorem fmtType_arr_eq (t : GType) (n : Nat) (d : String) :
    fmtType (.arr t n) d =
      fmtType t
        (if declStartsPtr d then "(" ++ d ++ ")[" ++ decimal n ++ "]"
        else d ++ "[" ++ decimal n ++ "]") := rfl

theorem declStartsPtr_cons (c : Char) (cs : List Char) :
    declStartsPtr ⟨c :: cs⟩ = (decide (c = '*') || decide (c = '&')) := rfl

theorem fmtType_arr_chain :
    ∀ (ts : List Nat) (c : Char) (cs : List Char) (B : GType),
      c ≠ '*' → c ≠ '&' →
      fmtType (ts.foldr (fun e acc => GType.arr acc e) B) ⟨c :: cs⟩
        = fmtType B ⟨c :: (cs ++ bracketJoin (tagCaps ts))⟩ := by
  intro ts
  induction ts with
  | nil =>
      intro c cs B _ _
      show fmtType B ⟨c :: cs⟩ = fmtType B ⟨c :: (cs ++ [])⟩
      rw [List.append_nil]
  | cons a rest ih =>
      intro c cs B hc1 hc2
      rw [List.foldr_cons, fmtType_arr_eq,
        if_neg (show ¬ declStartsPtr ⟨c :: cs⟩ = true by
          rw [declStartsPtr_cons]
          simp [hc1, hc2])]
      have hd' : (⟨c :: cs⟩ : String) ++ "[" ++ decimal a ++ "]" =
          ⟨c :: (cs ++ ('[' :: ((decimal a).data ++ [']'])))⟩ := by
        show String.mk ((((c :: cs) ++ ['[']) ++ (decimal a).data) ++ [']']) = _
        exact congrArg String.mk (by simp [List.append_assoc])
      rw [hd', ih c _ B hc1 hc2]
      exact congrArg (fun l => fmtType B ⟨c :: l⟩)
        (by simp [tagCaps, bracketJoin, List.append_assoc])

theorem fmtType_ptrIter :
    ∀ (m : Nat) (t : GType) (d : String),
      fmtType (ptrIter m t) d = fmtType t ⟨List.replicate m '*' ++ d.data⟩ := by
  intro m
  induction m with
  | zero =>
      intro t d
      show fmtType t d = fmtType t ⟨[] ++ d.data⟩
      rw [List.nil_append]
  | succ m ih =>
      intro t d
      show fmtType (.ptr (ptrIter m t)) d = _
      rw [fmtType_ptr_eq, ih]
      exact congrArg (fun l => fmtType t ⟨l⟩)
        (show List.replicate m '*' ++ ('*' :: d.data) =
            List.replicate (m + 1) '*' ++ d.data by
          rw [List.replicate_succ', List.append_assoc]
          rfl)

theorem typeToString_make_data (m : Nat) (nm : String) (flds : List GField)
    (loc : Int) (a : Nat) (rest : List Nat) :
    (typeToString
        (make_enums_tag ⟨ptrIter m (.base false false nm flds), loc⟩
          (a :: rest)).type).data
      = nm.data ++ ' ' ::
          (List.replicate m '*' ++
            (quadPtrLit ++ bracketJoin (tagCaps (a :: rest)))) := by
  rw [make_enums_tag_eq]
  show (fmtType
      ((a :: rest).foldr (fun e acc => GType.arr acc e)
        (.ptr (ptrIter m (.base false false nm flds))))
      "****").data = _
  rw [List.foldr_cons, fmtType_arr_eq,
    if_pos (show declStartsPtr "****" = true from rfl)]
  have hd0 : ("(" ++ "****" ++ ")[" ++ decimal a ++ "]") =
      (⟨'(' :: ('*' :: '*' :: '*' :: '*' :: ')' :: '[' ::
        ((decimal a).data ++ [']']))⟩ : String) := by
    show String.mk (((['('] ++ ['*', '*', '*', '*'] ++ [')', '[']) ++
        (decimal a).data) ++ [']']) = _
    exact congrArg String.mk (by simp [List.append_assoc])
  rw [hd0, fmtType_arr_chain rest '(' _ _ (by decide) (by decide),
    fmtType_ptr_eq]
  have hstar : ∀ (l : List Char), ("*" ++ (⟨l⟩ : String)) = ⟨'*' :: l⟩ :=
    fun l => rfl
  rw [hstar, fmtType_ptrIter m]
  have hbase : ∀ (d : String), d.data ≠ [] →
      (fmtType (.base false false nm flds) d).data =
        nm.data ++ ' ' :: d.data := by
    intro d hd
    show ((("" ++ "") ++ nm) ++ (if d = "" then "" else " " ++ d)).data = _
    rw [if_neg (show ¬ d = "" by
      intro h
      rw [h] at hd
      exact hd rfl)]
    show (([] ++ []) ++ nm.data) ++ ([' '] ++ d.data) = _
    simp
  rw [hbase _ (by simp)]
  show nm.data ++ ' ' ::
      (List.replicate m '*' ++
        ('*' :: '(' :: '*' :: '*' :: '*' :: '*' :: ')' :: '[' ::
          (((decimal a).data ++ [']']) ++ bracketJoin (tagCaps rest)))) = _
  simp [quadPtrLit, tagCaps, bracketJoin, List.append_assoc]

theorem synthTagsFindallAux_bracketJoin :
    ∀ (ds : List (List Char)) (f : Nat),
      (bracketJoin ds).length ≤ f →
      (∀ d ∈ ds, d ≠ [] ∧ ∀ c ∈ d, isAsciiDigit c = true) →
      synthTagsFindallAux f (bracketJoin ds) = ds := by
  intro ds
  induction ds with
  | nil =>
      intro f _ _
      match f with
      | 0 => rfl
      | f + 1 => rfl
  | cons d rest ih =>
      intro f hf hall
      obtain ⟨hdne, hdig⟩ := hall d (List.mem_cons_self _ _)
      have hlen := bracketJoin_length d rest
      match f with
      | 0 => rw [hlen] at hf; omega
      | f + 1 =>
          rw [bracketJoin_cons]
          show (match matchTagUnit ('[' :: (d ++ ']' :: bracketJoin rest)) with
              | some (dd, r) => dd :: synthTagsFindallAux f r
              | none =>
                  synthTagsFindallAux f
                    ('[' :: (d ++ ']' :: bracketJoin rest)).tail) = d :: rest
          rw [matchTagUnit_spec d (bracketJoin rest) hdne hdig]
          show d :: synthTagsFindallAux f (bracketJoin rest) = d :: rest
          rw [ih f (by rw [hlen] at hf; omega)
            (fun g hg => hall g (List.mem_cons_of_mem _ hg))]

theorem synthTagsFindall_bracketJoin (ds : List (List Char))
    (hall : ∀ d ∈ ds, d ≠ [] ∧ ∀ c ∈ d, isAsciiDigit c = true) :
    synthTagsFindall (bracketJoin ds) = ds :=
  synthTagsFindallAux_bracketJoin ds _ (Nat.le_refl _) hall

theorem tagCaps_wf (ts : List Nat) :
    ∀ d ∈ tagCaps ts, d ≠ [] ∧ ∀ c ∈ d, isAsciiDigit c = true := by
  intro d hd
  obtain ⟨e, _, rfl⟩ := List.mem_map.mp hd
  exact ⟨decimal_ne_nil e, decimal_digit e⟩

theorem tagCaps_pyInt (ts : List Nat) : (tagCaps ts).map pyIntOfDigits = ts := by
  show (ts.map (fun e => (decimal e).data)).map pyIntOfDigits = ts
  rw [List.map_map]
  have h : (pyIntOfDigits ∘ fun e => (decimal e).data) = id := by
    funext e
    exact pyIntOfDigits_decimal e
  rw [h, List.map_id]

theorem extract_make_of_wf (m : Nat) (nm : String) (flds : List GField)
    (loc : Int) (a : Nat) (rest : List Nat) (hwf : wfTagBaseName nm = true) :
    extract_enums_tag
        (make_enums_tag ⟨ptrIter m (.base false false nm flds), loc⟩
          (a :: rest))
      = .ok (a :: rest) := by
  have hty := typeToString_make_data m nm flds loc a rest
  have hsearch := synthTagTypeSearch_spec false false nm
      (typeToString
        (make_enums_tag ⟨ptrIter m (.base false false nm flds), loc⟩
          (a :: rest)).type)
      hwf m (tagCaps (a :: rest))
      (by simp [tagCaps])
      (tagCaps_wf _)
      (by simpa using hty)
  unfold extract_enums_tag get_type_tag_matches
  rw [hsearch]
  show Except.ok
      ((synthTagsFindall (bracketJoin (tagCaps (a :: rest)))).map pyIntOfDigits)
    = Except.ok (a :: rest)
  rw [synthTagsFindall_bracketJoin _ (tagCaps_wf _), tagCaps_pyInt]

theorem scan_advance_have_size (at_end : Nat → Bool) :
    ∀ (limit pos : Nat), scan_advance at_end true pos limit = limit := by
  intro limit
  induction limit with
  | zero => intro pos; rfl
  | succ l ih =>
      intro pos
      rw [scan_advance, if_neg (by simp : ¬((!true && at_end pos) = true)), ih]
      omega

theorem ceil_div_bounds (N k : Nat) (hk : 0 < k) :
    N ≤ ((N + k - 1) / k) * k ∧ ((N + k - 1) / k) * k < N + k := by
  have hdm := Nat.div_add_mod (N + k - 1) k
  have hmlt : (N + k - 1) % k < k := Nat.mod_lt _ hk
  rw [Nat.mul_comm] at hdm
  generalize hM : ((N + k - 1) / k) * k = M at hdm ⊢
  generalize hr : (N + k - 1) % k = r at hdm hmlt
  omega

theorem range_succ_map_mul (start k n : Nat) :
    (List.range (n + 1)).map (fun j => start + j * k)
      = start :: (List.range n).map (fun j => start + k + j * k) := by
  rw [List.range_succ_eq_map]
  simp only [List.map_cons, List.map_map]
  have h0 : start + 0 * k = start := by ring
  have hfun : ((fun j => start + j * k) ∘ Nat.succ) =
      fun j => start + k + j * k := by
    funext j
    show start + (j + 1) * k = start + k + j * k
    ring
  rw [h0, hfun]

theorem pyRangeAux_spec :
    ∀ (n f start k N : Nat), 0 < k →
      n = (N - start + k - 1) / k → n ≤ f →
      pyRangeAux f start (N : Int) k
        = (List.range n).map (fun j => start + j * k) := by
  intro n
  induction n with
  | zero =>
      intro f start k N hk hn _
      have h0 : N - start + k - 1 < k := by
        by_contra hcon
        push_neg at hcon
        have h1 : 1 ≤ (N - start + k - 1) / k :=
          (Nat.le_div_iff_mul_le hk).mpr (by omega)
        rw [← hn] at h1
        exact absurd h1 (by decide)
      have hns : N ≤ start := by omega
      have hcond : ¬ ((start : Int) < (N : Int)) := by
        exact_mod_cast Nat.not_lt.mpr hns
      match f with
      | 0 => rfl
      | f + 1 =>
          rw [pyRangeAux, if_neg hcond]
          rfl
  | succ n ih =>
      intro f start k N hk hn hf
      have hlt : start < N := by
        by_contra hcon
        push_neg at hcon
        have hz : (N - start + k - 1) / k = 0 := Nat.div_eq_of_lt (by omega)
        rw [hz] at hn
        exact absurd hn (by omega)
      have harith : n = (N - (start + k) + k - 1) / k := by
        rcases Nat.le_total (start + k) N with hcase | hcase
        · have h2 : N - start + k - 1 = (N - (start + k) + k - 1) + k := by
            omega
          rw [h2, Nat.add_div_right _ hk] at hn
          exact Nat.add_right_cancel hn
        · have hdiv : (N - start + k - 1) / k = 1 := by
            have h2 : N - start + k - 1 = (N - start - 1) + k := by omega
            rw [h2, Nat.add_div_right _ hk]
            rw [Nat.div_eq_of_lt (by omega : N - start - 1 < k)]
          rw [hdiv] at hn
          have hn0 : n = 0 := by omega
          subst hn0
          have h1 : N - (start + k) = 0 := by omega
          rw [h1]
          exact (Nat.div_eq_of_lt (by omega)).symm
      match f with
      | 0 => omega
      | f + 1 =>
          rw [pyRangeAux,
            if_pos (show (start : Int) < (N : Int) by exact_mod_cast hlt)]
          rw [ih f (start + k) k N hk harith (by omega)]
          rw [range_succ_map_mul]

theorem pyRange_eq (N k : Nat) (hk : 0 < k) :
    pyRange (N : Int) k
      = (List.range ((N + k - 1) / k)).map (fun j => j * k) := by
  rw [pyRange]
  have hfuel : ((N : Int)).toNat + 1 = N + 1 := by simp
  rw [hfuel]
  have h2 : N ≤ k * N := Nat.le_mul_of_pos_left N hk
  have h1 : N + k - 1 ≤ k * (N + 1) := by
    rw [Nat.mul_succ]
    generalize hKN : k * N = K at h2 ⊢
    omega
  have hceil : (N + k - 1) / k ≤ N + 1 := by
    have h3 : (N + k - 1) / k ≤ k * (N + 1) / k := Nat.div_le_div_right h1
    rw [Nat.mul_div_cancel_left _ hk] at h3
    exact h3
  have h := pyRangeAux_spec ((N + k - 1) / k) (N + 1) 0 k N hk
    (by rw [Nat.sub_zero]) hceil
  simpa using h

theorem emit_chunked_ptr_eq (ptr_add : Nat → GValue) (sz : Option Int)
    (d : Int) (N k : Nat) (hk : 0 < k)
    (hlen : (match sz with | some s => s | none => d) = (N : Int)) :
    emit_chunked_ptr ptr_add sz d k
      = (chunkSpec N k).map (fun p =>
          (chunkLabel p.1 p.2,
            make_enums_tag (ptr_add p.1) (_CHUNK_ENUM p.1 p.2))) := by
  simp only [emit_chunked_ptr]
  rw [hlen, pyRange_eq N k hk, chunkSpec, List.map_map, List.map_map]
  refine congrArg (fun f => List.map f (List.range ((N + k - 1) / k)))
    (funext fun j => ?_)
  simp only [Function.comp]
  have hmin : (if ((j * k : Nat) : Int) + (k : Int) ≤ (N : Int) then k
      else ((N : Int) - ((j * k : Nat) : Int)).toNat) = min k (N - j * k) := by
    by_cases hc : ((j * k : Nat) : Int) + (k : Int) ≤ (N : Int)
    · rw [if_pos hc]
      have hc' : j * k + k ≤ N := by exact_mod_cast hc
      generalize j * k = M at hc' ⊢
      omega
    · rw [if_neg hc]
      have hc' : ¬ (j * k + k ≤ N) := by
        intro h
        exact hc (by exact_mod_cast h)
      generalize j * k = M at hc' ⊢
      omega
  rw [hmin]
  rfl

theorem chunkSpec_length (N k : Nat) :
    (chunkSpec N k).length = (N + k - 1) / k := by
  simp [chunkSpec]

theorem chunkSpec_mem_full (N k : Nat) (hk : 0 < k) :
    ∀ p ∈ chunkSpec N k, (p.2 = k ∨ p.1 + p.2 = N) ∧ 0 < p.2 ∧ p.2 ≤ k := by
  intro p hp
  rw [chunkSpec] at hp
  obtain ⟨j, hj, rfl⟩ := List.mem_map.mp hp
  have hjc : j < (N + k - 1) / k := List.mem_range.mp hj
  obtain ⟨hlo, hhi⟩ := ceil_div_bounds N k hk
  have hjk : (j + 1) * k ≤ ((N + k - 1) / k) * k :=
    Nat.mul_le_mul_right k hjc
  have hsucc : (j + 1) * k = j * k + k := by ring
  rw [hsucc] at hjk
  show (min k (N - j * k) = k ∨ j * k + min k (N - j * k) = N) ∧
    0 < min k (N - j * k) ∧ min k (N - j * k) ≤ k
  generalize hA : j * k = A at hjk ⊢
  generalize hB : ((N + k - 1) / k) * k = B at hjk hlo hhi
  omega

theorem chunks_cover (k : Nat) (hk : 0 < k) :
    ∀ (c N i : Nat), N ≤ i + c * k → i + c * k < N + k →
      (((List.range c).map fun j =>
          (List.range (min k (N - (i + j * k)))).map fun t =>
            (i + j * k) + t)).join
        = (List.range (N - i)).map fun t => i + t := by
  intro c
  induction c with
  | zero =>
      intro N i h1 _
      have hz : 0 * k = 0 := by ring
      rw [hz] at h1
      have hN : N - i = 0 := by omega
      rw [hN]
      rfl
  | succ c ih =>
      intro N i h1 h2
      have hsucc : (c + 1) * k = c * k + k := by ring
      rw [hsucc] at h1 h2
      have hih := ih N (i + k) ?ha ?hb
      case ha =>
        generalize hM : c * k = M at h1 ⊢
        omega
      case hb =>
        generalize hM : c * k = M at h2 ⊢
        omega
      have hick : i + c * k < N + k := by
        generalize hM : c * k = M at h2 ⊢
        omega
      have hjoin : ∀ (a : List Nat) (l : List (List Nat)),
          (a :: l).join = a ++ l.join := fun a l => rfl
      rw [List.range_succ_eq_map, List.map_cons, List.map_map, hjoin]
      have htail : (List.map
          ((fun j => (List.range (min k (N - (i + j * k)))).map fun t =>
            (i + j * k) + t) ∘ Nat.succ) (List.range c)).join
          = (List.range (N - (i + k))).map fun t => (i + k) + t := by
        rw [← hih]
        refine congrArg List.join
          (List.map_congr_left fun j hj => ?_)
        have hoff : i + (j + 1) * k = i + k + j * k := by ring
        show (List.range (min k (N - (i + (j + 1) * k)))).map
            (fun t => (i + (j + 1) * k) + t) = _
        rw [hoff]
      rw [htail]
      have hz : i + 0 * k = i := by ring
      rw [hz]
      rcases Nat.le_total (i + k) N with hcase | hcase
      · have hmin : min k (N - i) = k := by omega
        rw [hmin]
        have hsplit : N - i = k + (N - (i + k)) := by omega
        rw [hsplit, List.range_add, List.map_append, List.map_map]
        refine congrArg (List.append ((List.range k).map fun t => i + t))
          (List.map_congr_left fun t _ => ?_)
        show i + k + t = i + (k + t)
        ring
      · have hmin : min k (N - i) = N - i := by omega
        rw [hmin]
        have hz2 : N - (i + k) = 0 := by omega
        rw [hz2]
        simp

theorem emit_chunked_scan_size_aux (at_end : Nat → Bool) (it_val : Nat → GValue)
    (N k : Nat) (hk : 0 < k) :
    ∀ (c f i : Nat), c = (N - i + k - 1) / k → c ≤ f →
      emit_chunked_scan at_end it_val (some (N : Int)) k f i i
        = ((List.range c).map (fun j => i + j * k)).map
            (fun o => (chunkLabel o (min k (N - o)),
              make_enums_tag (it_val o) (_CHUNK_ENUM o (min k (N - o))))) := by
  intro c
  induction c with
  | zero =>
      intro f i hc _
      have h0 : N - i + k - 1 < k := by
        by_contra hcon
        push_neg at hcon
        have h1 : 1 ≤ (N - i + k - 1) / k :=
          (Nat.le_div_iff_mul_le hk).mpr (by omega)
        rw [← hc] at h1
        exact absurd h1 (by decide)
      have hni : N ≤ i := by omega
      have hcond : ¬ ((i : Int) < (N : Int)) := by
        exact_mod_cast Nat.not_lt.mpr hni
      match f with
      | 0 => rfl
      | f + 1 =>
          rw [emit_chunked_scan]
          simp only [Option.isSome_some, Bool.not_true, Bool.false_and,
            Bool.or_false, Bool.true_and, decide_eq_true_eq]
          rw [if_neg hcond]
          rfl
  | succ c ih =>
      intro f i hc hf
      have hlt : i < N := by
        by_contra hcon
        push_neg at hcon
        have hz : (N - i + k - 1) / k = 0 := Nat.div_eq_of_lt (by omega)
        rw [hz] at hc
        exact absurd hc (by omega)
      rcases Nat.le_total (i + k) N with hcase | hcase
      · have hminA : min k (N - i) = k := by omega
        have harith : c = (N - (i + k) + k - 1) / k := by
          have h2 : N - i + k - 1 = (N - (i + k) + k - 1) + k := by omega
          rw [h2, Nat.add_div_right _ hk] at hc
          exact Nat.add_right_cancel hc
        match f with
        | 0 => omega
        | f + 1 =>
            rw [emit_chunked_scan]
            simp only [Option.isSome_some, Bool.not_true, Bool.false_and,
              Bool.or_false, Bool.true_and, decide_eq_true_eq,
              Bool.false_eq_true, if_false, if_true, ite_false, ite_true]
            rw [if_pos (show (i : Int) < (N : Int) by exact_mod_cast hlt)]
            have htn : ((N : Int) - (i : Int)).toNat = N - i := by omega
            rw [htn, scan_advance_have_size, hminA,
              if_neg (show ¬ (k = 0) by omega)]
            rw [ih f (i + k) harith (by omega)]
            rw [range_succ_map_mul, List.map_cons, hminA]
            rfl
      · have hminB : min k (N - i) = N - i := by omega
        have hdivB : (N - i + k - 1) / k = 1 := by
          have h2 : N - i + k - 1 = (N - i - 1) + k := by omega
          rw [h2, Nat.add_div_right _ hk]
          rw [Nat.div_eq_of_lt (by omega : N - i - 1 < k)]
        rw [hdivB] at hc
        have hc0 : c = 0 := by omega
        subst hc0
        match f with
        | 0 => omega
        | f + 1 =>
            rw [emit_chunked_scan]
            simp only [Option.isSome_some, Bool.not_true, Bool.false_and,
              Bool.or_false, Bool.true_and, decide_eq_true_eq,
              Bool.false_eq_true, if_false, if_true, ite_false, ite_true]
            rw [if_pos (show (i : Int) < (N : Int) by exact_mod_cast hlt)]
            have htn : ((N : Int) - (i : Int)).toNat = N - i := by omega
            rw [htn, scan_advance_have_size, hminB,
              if_neg (show ¬ (N - i = 0) by omega)]
            have hiN : i + (N - i) = N := by omega
            rw [hiN]
            rw [ih f N (by
              rw [Nat.sub_self]
              exact (Nat.div_eq_of_lt (by omega)).symm) (Nat.zero_le f)]
            rw [range_succ_map_mul, List.map_cons, hminB]
            have hback : N - 1 = i + (N - i) - 1 := by omega
            rw [hback]
            rfl

/-- C2: for every sequence length `N` reachable by any of the three traversal
tiers and every chunk size `k > 0`, `emit_chunked_elements` yields exactly the
chunk decomposition `chunkSpec N k`: `ceil(N/k) = (N + k - 1) / k` pairs whose
label is `"[o..o+n-1]"` and whose synthetic tag encodes `(offset, size)`
(decodable by `extract_enums_tag`); the chunks cover indices `0..N-1` exactly
once each in increasing order (their index ranges join to `range N`), every
chunk has positive size at most `k`, and a chunk of size `< k` can only be the
one that ends at `N` (the last); in particular a pointer range of `35`
elements with `k = 16` yields exactly the labels `"[0..15]"`, `"[16..31]"`,
`"[32..34]"`. -/
theorem c2_chunk_coverage (N k : Nat) (hk : 0 < k)
    (ptr_add it_add it_val : Nat → GValue) (at_end : Nat → Bool) (d : Int) :
    (emit_chunked_ptr ptr_add (some (N : Int)) d k
        = (chunkSpec N k).map (fun p =>
            (chunkLabel p.1 p.2,
              make_enums_tag (ptr_add p.1) (_CHUNK_ENUM p.1 p.2))))
    ∧ (emit_chunked_ra it_add (some (N : Int)) d k
        = (chunkSpec N k).map (fun p =>
            (chunkLabel p.1 p.2,
              make_enums_tag (it_add p.1) (_CHUNK_ENUM p.1 p.2))))
    ∧ (emit_chunked_scan at_end it_val (some (N : Int)) k ((N + k - 1) / k) 0 0
        = (chunkSpec N k).map (fun p =>
            (chunkLabel p.1 p.2,
              make_enums_tag (it_val p.1) (_CHUNK_ENUM p.1 p.2))))
    ∧ (chunkSpec N k).length = (N + k - 1) / k
    ∧ ((chunkSpec N k).map (fun p =>
          (List.range p.2).map (fun t => p.1 + t))).join = List.range N
    ∧ (∀ p ∈ chunkSpec N k, (p.2 = k ∨ p.1 + p.2 = N) ∧ 0 < p.2 ∧ p.2 ≤ k)
    ∧ (∀ (mdl : Nat) (nm : String) (flds : List GField) (loc : Int) (o n : Nat),
        wfTagBaseName nm = true →
        extract_enums_tag
            (make_enums_tag ⟨ptrIter mdl (.base false false nm flds), loc⟩
              (_CHUNK_ENUM o n))
          = .ok (_CHUNK_ENUM o n))
    ∧ (emit_chunked_ptr c2PtrAdd none 35 16).map Prod.fst
        = ["[0..15]", "[16..31]", "[32..34]"] := by
  refine ⟨emit_chunked_ptr_eq ptr_add (some (N : Int)) d N k hk rfl,
    emit_chunked_ptr_eq it_add (some (N : Int)) d N k hk rfl, ?_,
    chunkSpec_length N k, ?_, chunkSpec_mem_full N k hk, ?_, ?_⟩
  · rw [emit_chunked_scan_size_aux at_end it_val N k hk ((N + k - 1) / k)
      ((N + k - 1) / k) 0 (by rw [Nat.sub_zero]) (Nat.le_refl _)]
    rw [chunkSpec, List.map_map, List.map_map]
    refine congrArg (fun f => List.map f (List.range ((N + k - 1) / k)))
      (funext fun j => ?_)
    simp only [Function.comp]
    rw [Nat.zero_add]
  · obtain ⟨hlo, hhi⟩ := ceil_div_bounds N k hk
    have h := chunks_cover k hk ((N + k - 1) / k) N 0 (by simpa using hlo)
      (by simpa using hhi)
    rw [chunkSpec, List.map_map]
    simpa [Function.comp] using h
  · intro mdl nm flds loc o n hwf
    exact extract_make_of_wf mdl nm flds loc _CHUNK_ENUM_I [o, n] hwf
  · rfl

/-- C2 (witness): with chunk size `16 > 0`, the pointer tier on a 35-element
range yields exactly the three labels `"[0..15]"`, `"[16..31]"`, `"[32..34]"`. -/
theorem c2_chunk_coverage_witness :
    0 < 16 ∧
      (emit_chunked_ptr c2PtrAdd none 35 16).map Prod.fst
        = ["[0..15]", "[16..31]", "[32..34]"] :=
  ⟨by decide,
    (c2_chunk_coverage 35 16 (by decide) c2PtrAdd c2PtrAdd c2ItVal
        (fun _ => false) 35).2.2.2.2.2.2.2⟩
